import Mathlib

/-!
Verification model of the immudb SQL engine (pkg/sql).

The engine implementation itself (pkg/sql/engine.go and its companions) is
not part of the covered sources; only its test suite (pkg/sql/engine_test.go)
is.  Following the specification (spec.md), the definitions below are a
shallow embedding of the engine, modelled from the spec's data model (§3),
catalog contract (§4.2), evaluation rules (§4.4), planner rules (§4.5),
row-iterator semantics (§4.6) and executor facade (§4.7), and constrained by
the behaviour pinned down by the tests in the covered sources.  Machine
integers (u64/u32) are modelled as `Nat` with explicit `% 2^64` / `% 2^32`
where wrap-around matters; fallible operations return `Except Err`.
-/

set_option autoImplicit false
set_option synthInstance.maxSize 1024

deriving instance DecidableEq for Except

namespace ImmuSql

/-- Modelled from the spec: column types of the engine (§3, data model);
the engine sources declaring `IntegerType`, `StringType`, ... are not in
the covered sources. -/
inductive SQLType where
  | integer
  | varchar
  | boolean
  | blobT
  | timestamp
deriving DecidableEq, Repr

/-- Modelled from the spec: tagged runtime values (§4.4).  Integer and
timestamp values are unsigned 64-bit, modelled as `Nat` (reduced mod 2^64
wherever arithmetic may wrap); blobs are byte sequences modelled as
`List Nat`. -/
inductive Value where
  | int (n : Nat)
  | str (s : String)
  | bool (b : Bool)
  | blob (bs : List Nat)
  | ts (n : Nat)
deriving DecidableEq, Repr

def typeOfV : Value → SQLType
  | .int _ => .integer
  | .str _ => .varchar
  | .bool _ => .boolean
  | .blob _ => .blobT
  | .ts _ => .timestamp

/-- Big-endian byte decomposition of an unsigned 64-bit value (§4.1). -/
def u64Bytes (n : Nat) : List Nat :=
  [n / 2^56 % 256, n / 2^48 % 256, n / 2^40 % 256, n / 2^32 % 256,
   n / 2^24 % 256, n / 2^16 % 256, n / 2^8 % 256, n % 256]

/-- Big-endian byte decomposition of an unsigned 32-bit value (§4.1). -/
def u32Bytes (n : Nat) : List Nat :=
  [n / 2^24 % 256, n / 2^16 % 256, n / 2^8 % 256, n % 256]

/-- Modelled from the spec: the order-preserving key encoding of a typed
value (§4.1): integers/timestamps as u64 BE, strings and blobs
length-prefixed.  String bytes are modelled as the code points of the
string (the claims only exercise ASCII data). -/
def encodeValueKey : Value → List Nat
  | .int n => u64Bytes (n % 2^64)
  | .str s => u32Bytes (s.length % 2^32) ++ s.toList.map Char.toNat
  | .bool b => [if b then 1 else 0]
  | .blob bs => u32Bytes (bs.length % 2^32) ++ bs
  | .ts n => u64Bytes (n % 2^64)

/-- Lexicographic strict order on byte sequences (the order of the
underlying key-ordered store, §6.1). -/
def lexLtB : List Nat → List Nat → Bool
  | [], [] => false
  | [], _ :: _ => true
  | _ :: _, [] => false
  | a :: xs, b :: ys => if a < b then true else if b < a then false else lexLtB xs ys

/-- First-match association lookup (used for all keyed state in the model). -/
def alookup {κ ρ : Type} [DecidableEq κ] : List (κ × ρ) → κ → Option ρ
  | [], _ => none
  | (k, v) :: rest, k' => if k' = k then some v else alookup rest k'

/-- Next fresh id: one greater than the current maximum, first is 1 (§4.2). -/
def nextId (xs : List Nat) : Nat := xs.foldl Nat.max 0 + 1

/-- Modelled from the spec: the error taxonomy (§7); the engine's error
declarations are not in the covered sources. -/
inductive Err where
  | noDatabaseSelected
  | databaseAlreadyExists
  | databaseDoesNotExist
  | tableAlreadyExists
  | tableDoesNotExist
  | columnDoesNotExist
  | columnAlreadyExists
  | duplicatedColumn
  | invalidPK
  | pkCanNotBeNull
  | indexAlreadyExists
  | invalidNumberOfValues
  | invalidValue
  | notComparableValues
  | unresolvedParameter
  | ambiguousSelector
  | jointColumnNotFound
  | noMoreRows
  | corruptedCatalog
  | syntaxError
deriving DecidableEq, Repr

/-- Effectful map over `Except` (explicit recursion, used throughout the
model for fallible traversals). -/
def mapE {α β : Type} (f : α → Except Err β) : List α → Except Err (List β)
  | [] => .ok []
  | x :: xs => do
      let y ← f x
      let ys ← mapE f xs
      .ok (y :: ys)

/-- Modelled from the spec: the catalog as persisted — the four catalog key
families C (database), T (table), L (column), I (index) of §4.1/§6.3, as
flat association lists keyed by the ids appearing in the keys. -/
structure Catalog where
  dbs : List (Nat × String)
  tabs : List ((Nat × Nat) × (String × Nat))
  cols : List ((Nat × Nat × Nat) × (SQLType × String))
  idxs : List (Nat × Nat × Nat)
deriving DecidableEq, Repr

/-- Modelled from the spec: a catalog-store entry, one per key family of
§4.1 (`db` = kind C, `tab` = kind T carrying dbId/tableId/pkColId, `col` =
kind L carrying the type tag and name, `idx` = kind I). -/
inductive CatalogEntry where
  | db (dbId : Nat) (name : String)
  | tab (dbId tableId pkColId : Nat) (name : String)
  | col (dbId tableId colId : Nat) (ty : SQLType) (name : String)
  | idx (dbId tableId colId : Nat)
deriving DecidableEq, Repr

/-- Database entries of a catalog store (the C key range scan of §4.2). -/
def dbsOf : List CatalogEntry → List (Nat × String)
  | [] => []
  | .db i n :: es => (i, n) :: dbsOf es
  | _ :: es => dbsOf es

/-- Table entries of a catalog store (the T key range scan of §4.2); a
table referring to an unknown database is fatal. -/
def tabsOf (ids : List Nat) : List CatalogEntry → Except Err (List ((Nat × Nat) × (String × Nat)))
  | [] => .ok []
  | .tab d t pk n :: es =>
      if d ∈ ids then (tabsOf ids es).map (((d, t), (n, pk)) :: ·)
      else .error .corruptedCatalog
  | _ :: es => tabsOf ids es

/-- Column entries of a catalog store (the L key range scan of §4.2); a
column referring to an unknown table is fatal. -/
def colsOf (tks : List (Nat × Nat)) : List CatalogEntry → Except Err (List ((Nat × Nat × Nat) × (SQLType × String)))
  | [] => .ok []
  | .col d t c ty n :: es =>
      if (d, t) ∈ tks then (colsOf tks es).map (((d, t, c), (ty, n)) :: ·)
      else .error .corruptedCatalog
  | _ :: es => colsOf tks es

/-- Index entries of a catalog store (the I key range scan of §4.2).  The
index entry persisted for a table's primary-key column at table creation
is recognised by its column id and is not added to the table's
secondary-index set (the primary key is the implicit index); any other
entry must refer to a known column. -/
def idxsOf (tabs : List ((Nat × Nat) × (String × Nat))) (cks : List (Nat × Nat × Nat)) :
    List CatalogEntry → Except Err (List (Nat × Nat × Nat))
  | [] => .ok []
  | .idx d t c :: es =>
      match alookup tabs (d, t) with
      | none => .error .corruptedCatalog
      | some (_, pk) =>
          if c = pk then idxsOf tabs cks es
          else if (d, t, c) ∈ cks then (idxsOf tabs cks es).map ((d, t, c) :: ·)
          else .error .corruptedCatalog
  | _ :: es => idxsOf tabs cks es

/-- Modelled from the spec: `Load(catalogStore)` (§4.2) — reconstruct the
catalog from the persisted entries, phase by phase (databases, tables,
columns, indexes), failing with `corruptedCatalog` on a dangling
reference.  The engine's catalog loader is not in the covered sources. -/
def loadCatalog (es : List CatalogEntry) : Except Err Catalog := do
  let dbs := dbsOf es
  let tabs ← tabsOf (dbs.map (·.1)) es
  let cols ← colsOf (tabs.map (·.1)) es
  let idxs ← idxsOf tabs (cols.map (·.1)) es
  .ok ⟨dbs, tabs, cols, idxs⟩

/-- In-memory view of one column (§3). -/
structure Column where
  id : Nat
  name : String
  colType : SQLType
deriving DecidableEq, Repr

/-- In-memory view of one table (§3): its id, name, primary-key column id,
columns in id order, and the column ids of its secondary indexes. -/
structure TableView where
  id : Nat
  name : String
  pkId : Nat
  cols : List Column
  indexes : List Nat
deriving DecidableEq, Repr

/-- Columns of table `ti` of database `di` as recorded in the catalog. -/
def colsOfTable (c : Catalog) (di ti : Nat) : List Column :=
  c.cols.filterMap (fun p =>
    if p.1.1 = di ∧ p.1.2.1 = ti then some ⟨p.1.2.2, p.2.2, p.2.1⟩ else none)

/-- Secondary-index column ids of table `ti` of database `di`. -/
def tableIndexes (c : Catalog) (di ti : Nat) : List Nat :=
  c.idxs.filterMap (fun p => if p.1 = di ∧ p.2.1 = ti then some p.2.2 else none)

/-- Case-sensitive, exact-match database lookup (§3, invariant 1). -/
def findDB (c : Catalog) (n : String) : Option (Nat × String) :=
  c.dbs.find? (fun p => p.2 == n)

/-- Case-sensitive, exact-match table lookup within a database. -/
def findTable (c : Catalog) (di : Nat) (n : String) : Option TableView :=
  (c.tabs.find? (fun p => p.1.1 == di && p.2.1 == n)).map
    (fun p => ⟨p.1.2, n, p.2.2, colsOfTable c di p.1.2, tableIndexes c di p.1.2⟩)

/-- Table ids already assigned within database `di` (for fresh-id assignment). -/
def tableIdsIn (c : Catalog) (di : Nat) : List Nat :=
  c.tabs.filterMap (fun p => if p.1.1 = di then some p.1.2 else none)

/-- A row entry's value: (colId, typed value) for each present column, kept
in ascending colId order (§4.1). -/
abbrev RowData := List (Nat × Value)

/-- Modelled from the spec: the executor facade's state (§4.7) — the catalog
graph, the persisted catalog store, the data store's row entries per
(dbId, tableId) in encoded-primary-key order, its secondary-index (X)
entries, and the implicit database.  The engine structure itself is not in
the covered sources. -/
structure Engine where
  catalog : Catalog
  catalogStore : List CatalogEntry
  rows : List ((Nat × Nat) × List (Value × RowData))
  xStore : List (Nat × Nat × Nat × List Nat × List Nat)
  implicitDB : Option String
deriving DecidableEq, Repr

def engine0 : Engine := ⟨⟨[], [], [], []⟩, [], [], [], none⟩

/-- Row entries of one table, in ascending encoded-primary-key order. -/
def getRows (e : Engine) (di ti : Nat) : List (Value × RowData) :=
  (alookup e.rows (di, ti)).getD []

/-- Insert a row entry at its encoded-primary-key position, replacing any
prior entry for the same primary key (§4.6, UPSERT success (a)). -/
def insertRow (pk : Value) (rd : RowData) : List (Value × RowData) → List (Value × RowData)
  | [] => [(pk, rd)]
  | (k, v) :: rest =>
      if pk = k then (pk, rd) :: rest
      else if lexLtB (encodeValueKey pk) (encodeValueKey k) then (pk, rd) :: (k, v) :: rest
      else (k, v) :: insertRow pk rd rest

/-- Write one table's row store back into the engine's data store. -/
def putRows (rs : List ((Nat × Nat) × List (Value × RowData))) (k : Nat × Nat)
    (pk : Value) (rd : RowData) : List ((Nat × Nat) × List (Value × RowData)) :=
  match rs with
  | [] => [(k, insertRow pk rd [])]
  | (k', v) :: rest =>
      if k = k' then (k', insertRow pk rd v) :: rest
      else (k', v) :: putRows rest k pk rd

/-- Insert a (colId, value) pair keeping ascending colId order (§4.1). -/
def insertCol (c : Nat) (v : Value) : RowData → RowData
  | [] => [(c, v)]
  | (c', v') :: rest =>
      if c < c' then (c, v) :: (c', v') :: rest else (c', v') :: insertCol c v rest

/-- Row-entry bytes of the named columns, in ascending colId order (§4.1). -/
def sortRowData (l : List (Nat × Value)) : RowData :=
  l.foldl (fun acc p => insertCol p.1 p.2 acc) []

/-- Modelled from the spec: the statements of the language (§4.3), at the
AST level (the parser itself is out of the claims' scope); `upsert` carries
already-evaluated values. -/
inductive Stmt where
  | createDatabase (name : String)
  | useDatabase (name : String)
  | createTable (name : String) (colDefs : List (String × SQLType)) (pkName : String)
  | createIndex (table : String) (col : String)
  | upsert (table : String) (cols : List String) (vals : List Value)

/-- Number the column definitions with ids 1, 2, … in declaration order. -/
def numberCols (start : Nat) : List (String × SQLType) → List Column
  | [] => []
  | (n, ty) :: rest => ⟨start, n, ty⟩ :: numberCols (start + 1) rest

/-- Modelled from the spec: validation and row construction of an UPSERT
(§4.6, UPSERT semantics): the VALUES count must match the named columns,
duplicate target columns are rejected, each value must be of its column's
declared type, and the primary key must be present; on success the new row
entry holds exactly the named columns. -/
def upsertPlan (tv : TableView) (cns : List String) (vs : List Value) :
    Except Err (Value × RowData) :=
  if cns.length ≠ vs.length then .error .invalidNumberOfValues
  else if ¬ cns.Nodup then .error .duplicatedColumn
  else do
    let cols ← mapE (fun n =>
      match tv.cols.find? (fun c => c.name == n) with
      | some c => Except.ok c
      | none => Except.error Err.columnDoesNotExist) cns
    let pairs := cols.zip vs
    if pairs.all (fun p => typeOfV p.2 == p.1.colType) then
      match (pairs.find? (fun p => p.1.id == tv.pkId)).map (·.2) with
      | some pkv => .ok (pkv, sortRowData (pairs.map (fun p => (p.1.id, p.2))))
      | none => .error .pkCanNotBeNull
    else .error .invalidValue

/-- Secondary-index (X) entries written by an upsert: one per named column
that has a secondary index (§4.6, UPSERT success (b)); stale entries from
prior values are never removed (§9). -/
def xEntriesOf (di : Nat) (tv : TableView) (pkv : Value) (rd : RowData) :
    List (Nat × Nat × Nat × List Nat × List Nat) :=
  rd.filterMap (fun p =>
    if p.1 ∈ tv.indexes then some (di, tv.id, p.1, encodeValueKey p.2, encodeValueKey pkv)
    else none)

/-- Modelled from the spec: `ExecStatement` (§4.7 / §6.2) for DDL and DML.
Errors are returned alongside the (then unchanged) engine state; the
engine's executor is not in the covered sources. -/
def execStmt (e : Engine) (s : Stmt) : Engine × Option Err :=
  match s with
  | .createDatabase n =>
      if e.catalog.dbs.any (fun p => p.2 == n) then (e, some .databaseAlreadyExists)
      else
        let i := nextId (e.catalog.dbs.map (·.1))
        ({ e with catalog := { e.catalog with dbs := e.catalog.dbs ++ [(i, n)] },
                  catalogStore := e.catalogStore ++ [.db i n] }, none)
  | .useDatabase n =>
      if e.catalog.dbs.any (fun p => p.2 == n) then ({ e with implicitDB := some n }, none)
      else (e, some .databaseDoesNotExist)
  | .createTable n colDefs pkn =>
      match e.implicitDB with
      | none => (e, some .noDatabaseSelected)
      | some dn =>
        match findDB e.catalog dn with
        | none => (e, some .databaseDoesNotExist)
        | some (di, _) =>
          if ¬ (colDefs.map (·.1)).Nodup then (e, some .duplicatedColumn)
          else
            match (numberCols 1 colDefs).find? (fun c => c.name == pkn) with
            | none => (e, some .invalidPK)
            | some pkc =>
              if pkc.colType ≠ .integer ∧ pkc.colType ≠ .varchar then (e, some .invalidPK)
              else if (findTable e.catalog di n).isSome then (e, some .tableAlreadyExists)
              else
                let ti := nextId (tableIdsIn e.catalog di)
                let cols := numberCols 1 colDefs
                ({ e with
                   catalog := { e.catalog with
                     tabs := e.catalog.tabs ++ [((di, ti), (n, pkc.id))],
                     cols := e.catalog.cols ++
                       cols.map (fun c => ((di, ti, c.id), (c.colType, c.name))) },
                   catalogStore := e.catalogStore ++
                     ([.tab di ti pkc.id n] ++
                      cols.map (fun c => .col di ti c.id c.colType c.name) ++
                      [.idx di ti pkc.id]) }, none)
  | .createIndex tn cn =>
      match e.implicitDB with
      | none => (e, some .noDatabaseSelected)
      | some dn =>
        match findDB e.catalog dn with
        | none => (e, some .databaseDoesNotExist)
        | some (di, _) =>
          match findTable e.catalog di tn with
          | none => (e, some .tableDoesNotExist)
          | some tv =>
            match tv.cols.find? (fun c => c.name == cn) with
            | none => (e, some .columnDoesNotExist)
            | some c =>
              if c.id = tv.pkId ∨ c.id ∈ tv.indexes then (e, some .indexAlreadyExists)
              else
                ({ e with
                   catalog := { e.catalog with idxs := e.catalog.idxs ++ [(di, tv.id, c.id)] },
                   catalogStore := e.catalogStore ++ [.idx di tv.id c.id] }, none)
  | .upsert tn cns vs =>
      match e.implicitDB with
      | none => (e, some .noDatabaseSelected)
      | some dn =>
        match findDB e.catalog dn with
        | none => (e, some .databaseDoesNotExist)
        | some (di, _) =>
          match findTable e.catalog di tn with
          | none => (e, some .tableDoesNotExist)
          | some tv =>
            match upsertPlan tv cns vs with
            | .error er => (e, some er)
            | .ok (pkv, rd) =>
                ({ e with rows := putRows e.rows (di, tv.id) pkv rd,
                          xStore := e.xStore ++ xEntriesOf di tv pkv rd }, none)

/-- Run a statement sequence, threading the engine state (errors leave the
state as the failing statement left it). -/
def runStmts (e : Engine) (ss : List Stmt) : Engine :=
  ss.foldl (fun a s => (execStmt a s).fst) e

/-- Engines reachable from a fresh engine by any statement sequence. -/
inductive Reachable : Engine → Prop where
  | init : Reachable engine0
  | step {e : Engine} (s : Stmt) : Reachable e → Reachable (execStmt e s).fst

/-- A fully qualified column selector (database, table-or-alias, column),
the key of a result row's value map (glossary: Selector). -/
structure QSel where
  db : String
  tbl : String
  col : String
deriving DecidableEq, Repr

/-- A produced row: a map from qualified selector to present value; a
column with no stored value has no entry (§3: value-or-absent). -/
abbrev RowMap := List (QSel × Value)

def lookupQ (r : RowMap) (q : QSel) : Option Value := alookup r q

/-- Name-resolution scope: the qualifiers (table names or aliases) in the
current FROM scope, with the column names each exposes (§4.5). -/
abbrev Scope := List (String × List String)

/-- Modelled from the spec: column-reference resolution (§4.5): a qualified
reference must name a qualifier of the current scope exposing the column;
an unqualified one must be unambiguous across the scope
(`ambiguousSelector` otherwise). -/
def resolveQual (scope : Scope) : Option String → String → Except Err String
  | some t, n =>
      match scope.find? (fun p => p.1 == t) with
      | some p => if n ∈ p.2 then .ok t else .error .columnDoesNotExist
      | none => .error .columnDoesNotExist
  | none, n =>
      match scope.filter (fun p => n ∈ p.2) with
      | [] => .error .columnDoesNotExist
      | [p] => .ok p.1
      | _ => .error .ambiguousSelector

inductive CmpOp where
  | eq | ne | lt | le | gt | ge
deriving DecidableEq, Repr

/-- Modelled from the spec: scalar expressions (§4.4): literal, column
reference, NOT/AND/OR and comparisons. -/
inductive Exp where
  | const (v : Value)
  | colRef (tbl : Option String) (name : String)
  | notE (x : Exp)
  | andE (a b : Exp)
  | orE (a b : Exp)
  | cmp (op : CmpOp) (a b : Exp)

/-- Strict order on two values of the same ordered type (§4.4): boolean is
not ordered, differing types are not comparable. -/
def valueLtE : Value → Value → Except Err Bool
  | .int a, .int b => .ok (decide (a < b))
  | .str a, .str b => .ok (decide (a < b))
  | .blob a, .blob b => .ok (lexLtB a b)
  | .ts a, .ts b => .ok (decide (a < b))
  | _, _ => .error .notComparableValues

/-- Comparison of two present values (§4.4): `=`/`<>` demand equal types,
the order comparisons demand a common ordered type. -/
def cmpValues (op : CmpOp) (a b : Value) : Except Err Bool :=
  match op with
  | .eq => if typeOfV a = typeOfV b then .ok (decide (a = b)) else .error .notComparableValues
  | .ne => if typeOfV a = typeOfV b then .ok (! decide (a = b)) else .error .notComparableValues
  | .lt => valueLtE a b
  | .le => (valueLtE b a).map (! ·)
  | .gt => valueLtE b a
  | .ge => (valueLtE a b).map (! ·)

/-- Modelled from the spec: expression evaluation against one row (§4.4):
a column reference yields the row's value or absent; a comparison with an
absent operand yields false; AND/OR short-circuit; NOT needs a boolean. -/
def evalExp (db : String) (scope : Scope) (row : RowMap) : Exp → Except Err (Option Value)
  | .const v => .ok (some v)
  | .colRef t? n => do
      let q ← resolveQual scope t? n
      .ok (lookupQ row ⟨db, q, n⟩)
  | .notE x => do
      match ← evalExp db scope row x with
      | some (.bool b) => .ok (some (.bool (! b)))
      | _ => .error .invalidValue
  | .andE a b => do
      match ← evalExp db scope row a with
      | some (.bool false) => .ok (some (.bool false))
      | some (.bool true) =>
          match ← evalExp db scope row b with
          | some (.bool c) => .ok (some (.bool c))
          | _ => .error .invalidValue
      | _ => .error .invalidValue
  | .orE a b => do
      match ← evalExp db scope row a with
      | some (.bool true) => .ok (some (.bool true))
      | some (.bool false) =>
          match ← evalExp db scope row b with
          | some (.bool c) => .ok (some (.bool c))
          | _ => .error .invalidValue
      | _ => .error .invalidValue
  | .cmp op a b => do
      let va ← evalExp db scope row a
      let vb ← evalExp db scope row b
      match va, vb with
      | some x, some y => (cmpValues op x y).map (fun r => some (.bool r))
      | _, _ => .ok (some (.bool false))

inductive AggFn where
  | countAll | sum | minA | maxA | avg
deriving DecidableEq, Repr

/-- Modelled from the spec: an output selector (§4.5): a plain column
(optionally qualified and aliased) or an aggregate over a column. -/
inductive Sel where
  | col (tbl : Option String) (name : String) (asName : Option String)
  | agg (fn : AggFn) (cn : String) (asName : Option String)
deriving DecidableEq, Repr

/-- The integer values of column `cn` over a group (SUM/AVG operate on
integers, §4.6). -/
def intVals (db : String) (scope : Scope) (cn : String) (group : List RowMap) :
    Except Err (List Nat) := do
  let q ← resolveQual scope none cn
  mapE (fun v =>
    match v with
    | .int n => Except.ok n
    | _ => Except.error Err.invalidValue) (group.filterMap (fun r => lookupQ r ⟨db, q, cn⟩))

/-- The present values of column `cn` over a group (for MIN/MAX). -/
def colVals (db : String) (scope : Scope) (cn : String) (group : List RowMap) :
    Except Err (List Value) := do
  let q ← resolveQual scope none cn
  .ok (group.filterMap (fun r => lookupQ r ⟨db, q, cn⟩))

/-- Modelled from the spec: the aggregators (§4.6): COUNT(*) as u64, SUM
as u64 with wrap-on-overflow, MIN/MAX on any ordered type, AVG as the
floor division of the u64 sum by the count. -/
def aggEval (db : String) (scope : Scope) (f : AggFn) (cn : String) (group : List RowMap) :
    Except Err Value :=
  match f with
  | .countAll => .ok (.int (group.length % 2^64))
  | .sum => do
      let ns ← intVals db scope cn group
      .ok (.int (ns.foldl (fun a n => (a + n) % 2^64) 0))
  | .avg => do
      let ns ← intVals db scope cn group
      if ns.length = 0 then .error .invalidValue
      else .ok (.int (ns.foldl (fun a n => (a + n) % 2^64) 0 / ns.length))
  | .minA => do
      let vs ← colVals db scope cn group
      match vs with
      | [] => .error .invalidValue
      | h :: t => t.foldlM (fun acc v => (valueLtE v acc).map (fun lt => if lt then v else acc)) h
  | .maxA => do
      let vs ← colVals db scope cn group
      match vs with
      | [] => .error .invalidValue
      | h :: t => t.foldlM (fun acc v => (valueLtE acc v).map (fun lt => if lt then v else acc)) h

/-- Modelled from the spec: projection of one group of rows (§4.5 rule 4,
§4.6 Projection): the `i`-th selector's output is keyed by its alias, an
aggregate without an alias receiving the synthetic alias `col<i>` from its
position in the selector list; a plain column takes the group's value and
is dropped from the output map when absent. -/
def projColEntry (db q n outn : String) (group : List RowMap) : RowMap :=
  match group.head? with
  | some r =>
      match lookupQ r ⟨db, q, n⟩ with
      | some v => [(⟨db, q, outn⟩, v)]
      | none => []
  | none => []

def projSels (db : String) (scope : Scope) (primary : String) (group : List RowMap) :
    Nat → List Sel → Except Err RowMap
  | _, [] => .ok []
  | i, .col t? n al :: rest => do
      let q ← resolveQual scope t? n
      let tail ← projSels db scope primary group (i + 1) rest
      .ok (projColEntry db q n (al.getD n) group ++ tail)
  | i, .agg f cn al :: rest => do
      let v ← aggEval db scope f cn group
      let tail ← projSels db scope primary group (i + 1) rest
      .ok ((⟨db, primary, al.getD ("col" ++ toString i)⟩, v) :: tail)

/-- Is this evaluation result the boolean `true`?  WHERE and ON keep a row
only when its predicate evaluates to a present true (§4.4/§4.6). -/
def isTrueV (v : Option Value) : Bool := v = some (.bool true)

/-- Effectful filter over `Except` (the Selection operator's predicate may
fail, §4.6). -/
def filterE {α : Type} (p : α → Except Err Bool) : List α → Except Err (List α)
  | [] => .ok []
  | x :: xs => do
      let b ← p x
      let rest ← filterE p xs
      .ok (if b then x :: rest else rest)

/-- Group keys are tuples of optional values; their encoding orders the
emitted groups. -/
def gkeyEnc : List (Option Value) → List Nat
  | [] => []
  | none :: ks => 0 :: gkeyEnc ks
  | some v :: ks => 1 :: (encodeValueKey v ++ gkeyEnc ks)

/-- Insert a group key into an ordered, duplicate-free key list. -/
def insertKeySorted (k : List (Option Value)) : List (List (Option Value)) → List (List (Option Value))
  | [] => [k]
  | k' :: ks =>
      if k = k' then k' :: ks
      else if lexLtB (gkeyEnc k) (gkeyEnc k') then k :: k' :: ks
      else k' :: insertKeySorted k ks

/-- The group key of one row: the row's values at the GROUP BY columns. -/
def gkeyOf (db : String) (scope : Scope) (groupBy : List String) (r : RowMap) :
    Except Err (List (Option Value)) :=
  mapE (fun n => (resolveQual scope none n).map (fun q => lookupQ r ⟨db, q, n⟩)) groupBy

/-- Modelled from the spec: grouping (§4.6 Group-by/Aggregation): rows are
arranged by group key (via a sort, as the planner arranges) and one group
is formed per distinct key; with an empty GROUP BY list all rows form a
single group. -/
def mkGroups (db : String) (scope : Scope) (groupBy : List String) (rows : List RowMap) :
    Except Err (List (List RowMap)) := do
  let keyed ← mapE (fun r => (gkeyOf db scope groupBy r).map (fun k => (k, r))) rows
  let ks := keyed.foldl (fun acc p => insertKeySorted p.1 acc) []
  .ok (ks.map (fun k => (keyed.filter (fun p => p.1 == k)).map (·.2)))

def hasAgg (sels : List Sel) : Bool :=
  sels.any (fun s => match s with | .agg _ _ _ => true | _ => false)

/-- Sort key of an output row for ORDER BY: the encoded value at the first
entry whose column name matches. -/
def sortKeyOf (c : String) (r : RowMap) : List Nat :=
  match r.find? (fun p => p.1.col == c) with
  | some p => encodeValueKey p.2
  | none => []

/-- Does row `r` sort strictly before row `y` on column `c`? -/
def rowBefore (c : String) (desc : Bool) (r y : RowMap) : Bool :=
  if desc then lexLtB (sortKeyOf c y) (sortKeyOf c r)
  else lexLtB (sortKeyOf c r) (sortKeyOf c y)

/-- Stable insertion for the materialized ORDER BY sort (§4.6 Order-by). -/
def insRowSorted (c : String) (desc : Bool) (r : RowMap) : List RowMap → List RowMap
  | [] => [r]
  | y :: ys =>
      if rowBefore c desc r y then r :: y :: ys
      else y :: insRowSorted c desc r ys

def orderRows (c : String) (desc : Bool) (rows : List RowMap) : List RowMap :=
  rows.foldl (fun acc r => insRowSorted c desc r acc) []

/-- An INNER JOIN: the joined table (with optional alias) and the two
column references of its ON equality. -/
structure JoinSpec where
  table : String
  asName : Option String
  onL : Option String × String
  onR : Option String × String

/-- Which side a join-ON column reference belongs to: `true` for the newly
joined table, `false` for the prior scope; a reference resolving to
neither side is a joint-column failure. -/
def sideOfSel (scope : Scope) (right : String × List String) :
    Option String × String → Except Err Bool
  | (some t, _) =>
      if t = right.1 then .ok true
      else if scope.any (fun p => p.1 == t) then .ok false
      else .error .jointColumnNotFound
  | (none, n) =>
      if scope.any (fun p => n ∈ p.2) then .ok false
      else if n ∈ right.2 then .ok true
      else .error .jointColumnNotFound

/-- Modelled from the spec: a join whose ON clause does not reference a
column from each of the two sides is rejected with `jointColumnNotFound`
(§4.5 rule 5); the failure surfaces on the first read, as the reader is
built lazily. -/
def checkJoinSides (scope : Scope) (right : String × List String) (j : JoinSpec) :
    Except Err Unit := do
  let s1 ← sideOfSel scope right j.onL
  let s2 ← sideOfSel scope right j.onR
  if s1 = s2 then .error .jointColumnNotFound else .ok ()

/-- Decode one stored row entry into a row map qualified by (database,
table alias) (§4.6 Table scan). -/
def rowMapOf (dbn al : String) (cols : List Column) (rd : RowData) : RowMap :=
  cols.filterMap (fun c => (alookup rd c.id).map (fun v => (⟨dbn, al, c.name⟩, v)))

/-- Modelled from the spec: the primary scan of one table (§4.6): its row
entries in ascending encoded-primary-key order, decoded. -/
def tableRows (e : Engine) (di : Nat) (dbn : String) (tv : TableView) (al : String) :
    List RowMap :=
  (getRows e di tv.id).map (fun p => rowMapOf dbn al tv.cols p.2)

/-- Modelled from the spec: the nested-loop INNER JOIN (§4.6): for each
left row, the right rows matching the ON equality are appended; the
joint-column check of §4.5 runs before any row is produced, so its failure
is what the first read returns. -/
def evalJoins (e : Engine) (di : Nat) (dbn : String) :
    Scope → List RowMap → List JoinSpec → Except Err (Scope × List RowMap)
  | scope, rows, [] => .ok (scope, rows)
  | scope, rows, j :: js => do
      match findTable e.catalog di j.table with
      | none => .error .tableDoesNotExist
      | some tv =>
          let ra := j.asName.getD j.table
          let right := (ra, tv.cols.map (·.name))
          let _ ← checkJoinSides scope right j
          let scope' := scope ++ [right]
          let onE : Exp := .cmp .eq (.colRef j.onL.1 j.onL.2) (.colRef j.onR.1 j.onR.2)
          let rrows := tableRows e di dbn tv ra
          let joined ← rows.foldlM (fun acc l => do
            let ms ← filterE (fun r => (evalExp dbn scope' (l ++ r) onE).map isTrueV) rrows
            Except.ok (acc ++ ms.map (fun r => l ++ r))) []
          evalJoins e di dbn scope' joined js

/-- The WHERE stage (§4.6 Selection): keep the rows whose predicate
evaluates to a present `true`. -/
def whereFilter (dbn : String) (scope : Scope) (w : Option Exp) (rows : List RowMap) :
    Except Err (List RowMap) :=
  match w with
  | none => .ok rows
  | some wE => filterE (fun r => (evalExp dbn scope r wE).map isTrueV) rows

/-- The grouping stage: with aggregates or a GROUP BY list, form groups by
key; otherwise each row is its own (singleton) group. -/
def groupsFor (dbn : String) (scope : Scope) (sels : List Sel) (g : List String)
    (rows : List RowMap) : Except Err (List (List RowMap)) :=
  if hasAgg sels ∨ g ≠ [] then mkGroups dbn scope g rows
  else .ok (rows.map (fun r => [r]))

/-- The ORDER BY stage (§4.6 Order-by): materialize and stable-sort. -/
def orderStage (o : Option (String × Bool)) (outs : List RowMap) : List RowMap :=
  match o with
  | none => outs
  | some (c, d) => orderRows c d outs

/-- Modelled from the spec: the operator pipeline shared by every SELECT
(§4.6): joins, then the WHERE selection, then grouping/aggregation or
per-row projection, then the materialized ORDER BY sort. -/
def evalCore (e : Engine) (di : Nat) (dbn : String) (sels : List Sel) (primary : String)
    (scope0 : Scope) (rows0 : List RowMap) (joins : List JoinSpec) (whereC : Option Exp)
    (groupBy : List String) (orderBy : Option (String × Bool)) : Except Err (List RowMap) := do
  let sr ← evalJoins e di dbn scope0 rows0 joins
  let rows ← whereFilter dbn sr.1 whereC sr.2
  let groups ← groupsFor dbn sr.1 sels groupBy rows
  let outs ← mapE (fun g => projSels dbn sr.1 primary g 0 sels) groups
  .ok (orderStage orderBy outs)

/-- A SELECT whose FROM clause is a plain table: the shape allowed inside
a sub-query (§4.3 permits one level of sub-query in the claims' scope). -/
structure SimpleSelect where
  sels : List Sel
  table : String
  asName : Option String
  joins : List JoinSpec
  whereC : Option Exp
  groupBy : List String
  orderBy : Option (String × Bool)

/-- Evaluate a plain-table SELECT. -/
def rowsOfSimple (e : Engine) (di : Nat) (dbn : String) (q : SimpleSelect) :
    Except Err (List RowMap) :=
  match findTable e.catalog di q.table with
  | none => .error .tableDoesNotExist
  | some tv =>
      let a := q.asName.getD q.table
      evalCore e di dbn q.sels a [(a, tv.cols.map (·.name))] (tableRows e di dbn tv a)
        q.joins q.whereC q.groupBy q.orderBy

/-- The static scope of a plain-table SELECT: its table (under its alias)
followed by the joined tables (under theirs). -/
def staticScope (c : Catalog) (di : Nat) (q : SimpleSelect) : Except Err Scope := do
  match findTable c di q.table with
  | none => .error .tableDoesNotExist
  | some tv =>
      let js ← mapE (fun j =>
        match findTable c di j.table with
        | none => Except.error Err.tableDoesNotExist
        | some jtv => Except.ok (j.asName.getD j.table, jtv.cols.map (·.name))) q.joins
      .ok ((q.asName.getD q.table, tv.cols.map (·.name)) :: js)

/-- The (qualifier, output name) of each selector of a SELECT, in selector
order (§4.6 Projection propagates (db, tableAlias, columnAlias)). -/
def outNames (scope : Scope) (primary : String) : Nat → List Sel → Except Err (List (String × String))
  | _, [] => .ok []
  | i, .col t? n al :: rest => do
      let q ← resolveQual scope t? n
      (outNames scope primary (i + 1) rest).map ((q, al.getD n) :: ·)
  | i, .agg _ _ al :: rest =>
      (outNames scope primary (i + 1) rest).map
        ((primary, al.getD ("col" ++ toString i)) :: ·)

/-- Group a sub-query's output names by qualifier, giving the scope it
exposes to the outer query. -/
def scopeFromOuts (outs : List (String × String)) : Scope :=
  (outs.map (·.1)).eraseDups.map (fun q => (q, (outs.filter (fun p => p.1 == q)).map (·.2)))

/-- Re-qualify every selector of a row under one alias (§4.6 Sub-query:
the inner stream is exposed under the sub-query's alias). -/
def rekey (a : String) (r : RowMap) : RowMap :=
  r.map (fun p => (⟨p.1.db, a, p.1.col⟩, p.2))

/-- A FROM-clause data source: a table or a sub-query, each with an
optional alias. -/
inductive Source where
  | base (table : String) (asName : Option String)
  | subq (q : SimpleSelect) (asName : Option String)

/-- Modelled from the spec: the rows, scope and primary alias exposed by a
FROM-clause source (§4.6).  A sub-query with an explicit alias exposes its
stream solely under that alias (internal aliases hidden); one without an
alias passes its output qualifiers through unchanged. -/
def sourceRowsOf (e : Engine) (di : Nat) (dbn : String) :
    Source → Except Err (Scope × String × List RowMap)
  | .base t a =>
      match findTable e.catalog di t with
      | none => .error .tableDoesNotExist
      | some tv =>
          let al := a.getD t
          .ok ([(al, tv.cols.map (·.name))], al, tableRows e di dbn tv al)
  | .subq q a => do
      let rows ← rowsOfSimple e di dbn q
      let sc ← staticScope e.catalog di q
      let outs ← outNames sc (q.asName.getD q.table) 0 q.sels
      match a with
      | some al => .ok ([(al, outs.map (·.2))], al, rows.map (rekey al))
      | none => .ok (scopeFromOuts outs, q.asName.getD q.table, rows)

/-- A full SELECT statement (sub-queries one level deep, as exercised by
the covered sources). -/
structure SelectStmt where
  sels : List Sel
  src : Source
  joins : List JoinSpec
  whereC : Option Exp
  groupBy : List String
  orderBy : Option (String × Bool)

/-- Evaluate a SELECT to its full row stream. -/
def evalSelect (e : Engine) (di : Nat) (dbn : String) (q : SelectStmt) :
    Except Err (List RowMap) := do
  let sr ← sourceRowsOf e di dbn q.src
  evalCore e di dbn q.sels sr.2.1 sr.1 sr.2.2 q.joins q.whereC q.groupBy q.orderBy

/-- A reader (root row iterator): the lazily computed row stream, an error
surfacing on the first read (§4.6/§4.7). -/
abbrev Reader := Except Err (List RowMap)

/-- Modelled from the spec: `QueryStatement` (§4.7 / §6.2): resolves the
implicit database and returns the root reader; evaluation errors surface
from `readAt`, not from the statement itself. -/
def queryStmt (e : Engine) (q : SelectStmt) : Except Err Reader :=
  match e.implicitDB with
  | none => .error .noDatabaseSelected
  | some dn =>
      match findDB e.catalog dn with
      | none => .error .databaseDoesNotExist
      | some (di, _) => .ok (evalSelect e di dn q)

/-- The k-th read from a reader: the k-th row, `noMoreRows` once the
stream is exhausted (§4.6 Limit/EndOfRows), or the stream's error. -/
def readAt (r : Reader) (k : Nat) : Except Err RowMap :=
  match r with
  | .error er => .error er
  | .ok rows =>
      match rows.get? k with
      | some row => .ok row
      | none => .error .noMoreRows

/-- The first `n` reads from a reader, in order. -/
def readSeq (r : Reader) (n : Nat) : List (Except Err RowMap) :=
  (List.range n).map (readAt r)

/-! ### Concrete scenarios used by the claims -/

/-- The Upsert/Select scenario: `table1(id INTEGER, title STRING, PRIMARY
KEY id)` in `db1`, rows `(i, title<i>)` for i = 0..9. -/
def stmtsC1 : List Stmt :=
  [.createDatabase "db1", .useDatabase "db1",
   .createTable "table1" [("id", .integer), ("title", .varchar)] "id"] ++
  (List.range 10).map (fun i =>
    .upsert "table1" ["id", "title"] [.int i, .str ("title" ++ toString i)])

def engC1 : Engine := runStmts engine0 stmtsC1

/-- `SELECT id, title FROM table1 ORDER BY id DESC`. -/
def queryC1 : SelectStmt :=
  ⟨[.col none "id" none, .col none "title" none], .base "table1" none, [],
   none, [], some ("id", true)⟩

def rowOfC1 (n : Nat) : RowMap :=
  [(⟨"db1", "table1", "id"⟩, .int n),
   (⟨"db1", "table1", "title"⟩, .str ("title" ++ toString n))]

def rowsC1 : List RowMap := [9, 8, 7, 6, 5, 4, 3, 2, 1, 0].map rowOfC1

/-- The aggregation scenario: `table1(id, age INTEGER)` with one row per
age = 31..40. -/
def stmtsC6 : List Stmt :=
  [.createDatabase "db1", .useDatabase "db1",
   .createTable "table1" [("id", .integer), ("age", .integer)] "id"] ++
  (List.range 10).map (fun i => .upsert "table1" ["id", "age"] [.int (i + 1), .int (31 + i)])

def engC6 : Engine := runStmts engine0 stmtsC6

/-- `SELECT COUNT(*), SUM(age), MIN(age), MAX(age), AVG(age) FROM table1`. -/
def queryC6 : SelectStmt :=
  ⟨[.agg .countAll "" none, .agg .sum "age" none, .agg .minA "age" none,
    .agg .maxA "age" none, .agg .avg "age" none], .base "table1" none, [], none, [], none⟩

def aggRowC6 : RowMap :=
  [(⟨"db1", "table1", "col0"⟩, .int 10), (⟨"db1", "table1", "col1"⟩, .int 355),
   (⟨"db1", "table1", "col2"⟩, .int 31), (⟨"db1", "table1", "col3"⟩, .int 40),
   (⟨"db1", "table1", "col4"⟩, .int 35)]

/-- The overwrite scenario: `(1, 'some title')` is stored, then the row is
upserted again naming only `id`. -/
def stmtsC3 : List Stmt :=
  [.createDatabase "db1", .useDatabase "db1",
   .createTable "table1" [("id", .integer), ("title", .varchar)] "id",
   .upsert "table1" ["id", "title"] [.int 1, .str "some title"],
   .upsert "table1" ["id"] [.int 1]]

def engC3 : Engine := runStmts engine0 stmtsC3

/-- `SELECT id, title FROM table1`. -/
def queryC3 : SelectStmt :=
  ⟨[.col none "id" none, .col none "title" none], .base "table1" none, [], none, [], none⟩

def rowC3 : RowMap := [(⟨"db1", "table1", "id"⟩, .int 1)]

/-- The grouped-aggregation scenario: `table1(id, title, age, active)` with
rows i = 0..9, age = 40+i, active = (i even). -/
def stmtsC4 : List Stmt :=
  [.createDatabase "db1", .useDatabase "db1",
   .createTable "table1"
     [("id", .integer), ("title", .varchar), ("age", .integer), ("active", .boolean)] "id"] ++
  (List.range 10).map (fun i =>
    .upsert "table1" ["id", "title", "age", "active"]
      [.int i, .str ("title" ++ toString i), .int (40 + i), .bool (i % 2 == 0)])

def engC4 : Engine := runStmts engine0 stmtsC4

/-- `SELECT active, COUNT(*) AS c, MIN(age), MAX(age) FROM table1 GROUP BY
active`: MIN(age) is the first aggregate output without an AS alias. -/
def queryC4 : SelectStmt :=
  ⟨[.col none "active" none, .agg .countAll "" (some "c"), .agg .minA "age" none,
    .agg .maxA "age" none], .base "table1" none, [], none, ["active"], none⟩

def rowC4even : RowMap :=
  [(⟨"db1", "table1", "active"⟩, .bool true), (⟨"db1", "table1", "c"⟩, .int 5),
   (⟨"db1", "table1", "col2"⟩, .int 40), (⟨"db1", "table1", "col3"⟩, .int 48)]

def rowC4odd : RowMap :=
  [(⟨"db1", "table1", "active"⟩, .bool false), (⟨"db1", "table1", "c"⟩, .int 5),
   (⟨"db1", "table1", "col2"⟩, .int 41), (⟨"db1", "table1", "col3"⟩, .int 49)]

/-- The sub-query scenario: `table1(id, title, active)` with rows i = 0..9,
active = (i even). -/
def stmtsC5 : List Stmt :=
  [.createDatabase "db1", .useDatabase "db1",
   .createTable "table1" [("id", .integer), ("title", .varchar), ("active", .boolean)] "id"] ++
  (List.range 10).map (fun i =>
    .upsert "table1" ["id", "title", "active"]
      [.int i, .str ("title" ++ toString i), .bool (i % 2 == 0)])

def engC5 : Engine := runStmts engine0 stmtsC5

/-- The inner `SELECT id, title, active FROM table1 AS table2`: the alias
`table2` is introduced only inside the sub-query. -/
def innerC5 : SimpleSelect :=
  ⟨[.col none "id" none, .col none "title" none, .col none "active" none],
   "table1", some "table2", [], none, [], none⟩

/-- `SELECT id, title AS t FROM (SELECT id, title, active FROM table1 AS
table2) WHERE active AND table2.id >= 0`: the outer WHERE qualifies `id`
by the sub-query's internal alias. -/
def queryC5 : SelectStmt :=
  ⟨[.col none "id" none, .col none "title" (some "t")], .subq innerC5 none, [],
   some (.andE (.colRef none "active") (.cmp .ge (.colRef (some "table2") "id") (.const (.int 0)))),
   [], none⟩

def rowOfC5 (n : Nat) : RowMap :=
  [(⟨"db1", "table2", "id"⟩, .int n),
   (⟨"db1", "table2", "t"⟩, .str ("title" ++ toString n))]

/-! ### Helper lemmas -/

theorem bind_ok_inv {α β : Type} {x : Except Err α} {k : α → Except Err β} {b : β}
    (h : (x >>= k) = .ok b) : ∃ a, x = .ok a ∧ k a = .ok b := by
  cases x with
  | error er => simp [bind, Except.bind] at h
  | ok a => exact ⟨a, rfl, by simpa [bind, Except.bind] using h⟩

theorem mem_insRowSorted {c : String} {d : Bool} {r x : RowMap} :
    ∀ {l : List RowMap}, x ∈ insRowSorted c d r l → x = r ∨ x ∈ l := by
  intro l
  induction l with
  | nil => intro h; simpa [insRowSorted] using h
  | cons y ys ih =>
      intro h
      simp only [insRowSorted] at h
      split at h
      · simp only [List.mem_cons] at h
        rcases h with h | h | h
        · exact Or.inl h
        · exact Or.inr (by simp [h])
        · exact Or.inr (by simp [h])
      · simp only [List.mem_cons] at h
        rcases h with h | h
        · exact Or.inr (by simp [h])
        · rcases ih h with h' | h'
          · exact Or.inl h'
          · exact Or.inr (by simp [h'])

theorem mem_orderRows {c : String} {d : Bool} {x : RowMap} :
    ∀ {l acc : List RowMap}, x ∈ l.foldl (fun a r => insRowSorted c d r a) acc →
      x ∈ acc ∨ x ∈ l := by
  intro l
  induction l with
  | nil => intro acc h; exact Or.inl h
  | cons y ys ih =>
      intro acc h
      rcases ih h with h' | h'
      · rcases mem_insRowSorted h' with h'' | h''
        · exact Or.inr (by simp [h''])
        · exact Or.inl h''
      · exact Or.inr (by simp [h'])

theorem mapE_ok_mem {α β : Type} {f : α → Except Err β} :
    ∀ {l : List α} {ys : List β}, mapE f l = .ok ys → ∀ y ∈ ys, ∃ x ∈ l, f x = .ok y := by
  intro l
  induction l with
  | nil =>
      intro ys h y hy
      simp only [mapE] at h
      cases h
      simp at hy
  | cons a t ih =>
      intro ys h y hy
      simp only [mapE] at h
      cases ha : f a with
      | error er => rw [ha] at h; simp [bind, Except.bind] at h
      | ok b =>
          rw [ha] at h
          cases ht : mapE f t with
          | error er => rw [ht] at h; simp [bind, Except.bind] at h
          | ok bs =>
              rw [ht] at h
              simp only [Except.bind, bind, Except.ok.injEq] at h
              subst h
              simp only [List.mem_cons] at hy
              rcases hy with hy | hy
              · exact ⟨a, by simp, by simpa [hy] using ha⟩
              · rcases ih ht y hy with ⟨x, hx, hfx⟩
                exact ⟨x, by simp [hx], hfx⟩

theorem mapE_ok_length {α β : Type} {f : α → Except Err β} :
    ∀ {l : List α} {ys : List β}, mapE f l = .ok ys → ys.length = l.length := by
  intro l
  induction l with
  | nil => intro ys h; simp only [mapE] at h; cases h; rfl
  | cons a t ih =>
      intro ys h
      simp only [mapE] at h
      cases ha : f a with
      | error er => rw [ha] at h; simp [bind, Except.bind] at h
      | ok b =>
          rw [ha] at h
          cases ht : mapE f t with
          | error er => rw [ht] at h; simp [bind, Except.bind] at h
          | ok bs =>
              rw [ht] at h
              simp only [Except.bind, bind, Except.ok.injEq] at h
              subst h
              simp [ih ht]

theorem mapE_ok_get {α β : Type} {f : α → Except Err β} :
    ∀ {l : List α} {ys : List β}, mapE f l = .ok ys →
      ∀ k x, l.get? k = some x → ∃ y, ys.get? k = some y ∧ f x = .ok y := by
  intro l
  induction l with
  | nil => intro ys h k x hk; simp at hk
  | cons a t ih =>
      intro ys h k x hk
      simp only [mapE] at h
      cases ha : f a with
      | error er => rw [ha] at h; simp [bind, Except.bind] at h
      | ok b =>
          rw [ha] at h
          cases ht : mapE f t with
          | error er => rw [ht] at h; simp [bind, Except.bind] at h
          | ok bs =>
              rw [ht] at h
              simp only [Except.bind, bind, Except.ok.injEq] at h
              subst h
              cases k with
              | zero =>
                  simp only [List.get?] at hk
                  cases hk
                  exact ⟨b, rfl, ha⟩
              | succ k' =>
                  simp only [List.get?] at hk
                  exact ih ht k' x hk

theorem mapE_ok_of_all {α β : Type} {f : α → Except Err β} :
    ∀ {l : List α}, (∀ x ∈ l, ∃ y, f x = .ok y) → ∃ ys, mapE f l = .ok ys := by
  intro l
  induction l with
  | nil => intro h; exact ⟨[], rfl⟩
  | cons a t ih =>
      intro h
      rcases h a (by simp) with ⟨b, hb⟩
      rcases ih (fun x hx => h x (by simp [hx])) with ⟨bs, hbs⟩
      exact ⟨b :: bs, by simp [mapE, hb, hbs, Except.bind, bind]⟩

/-! ### Claims settled on concrete scenarios -/

/-- C1: after creating `table1(id INTEGER, title STRING, PRIMARY KEY id)`
in db1 and upserting rows `(i, title<i>)` for i = 0..9, the query
`SELECT id, title FROM table1 ORDER BY id DESC` returns exactly ten rows
with id = 9,8,…,0 and the matching `title<id>` in that order, and the next
read returns `noMoreRows`. -/
theorem claim_C1 :
    queryStmt engC1 queryC1 = .ok (.ok rowsC1) ∧
    readSeq (.ok rowsC1) 11 = rowsC1.map .ok ++ [.error .noMoreRows] := by
  decide

/-- C6: with `table1(id, age INTEGER)` populated with one row per age =
31..40, `SELECT COUNT(*), SUM(age), MIN(age), MAX(age), AVG(age)` returns
exactly one row with values (10, 355, 31, 40, 35) — AVG the floor of the
u64 sum divided by the count — and the next read returns `noMoreRows`. -/
theorem claim_C6 :
    queryStmt engC6 queryC6 = .ok (.ok [aggRowC6]) ∧
    readSeq (.ok [aggRowC6]) 2 = [.ok aggRowC6, .error .noMoreRows] := by
  decide

/-- C3 counterexample: upserting `(id) VALUES (1)` over the stored row
`(1, 'some title')` leaves a row entry holding only `id`: the subsequent
`SELECT id, title FROM table1` returns the row with no value for `title`
— not the previously stored `'some title'` the claim predicts. -/
theorem claim_C3_cex :
    queryStmt engC3 queryC3 = .ok (.ok [rowC3]) ∧
    lookupQ rowC3 ⟨"db1", "table1", "title"⟩ = none := by
  decide

/-- C4 counterexample: in `SELECT active, COUNT(*) AS c, MIN(age),
MAX(age) … GROUP BY active`, the first aggregate output without an alias
(`MIN(age)`) is addressable as `col2` — its position in the selector list
— and `col1` addresses nothing, contradicting the claimed `col1`. -/
theorem claim_C4_cex :
    queryStmt engC4 queryC4 = .ok (.ok [rowC4odd, rowC4even]) ∧
    lookupQ rowC4odd ⟨"db1", "table1", "col1"⟩ = none ∧
    lookupQ rowC4odd ⟨"db1", "table1", "col2"⟩ = some (.int 41) := by
  decide

/-- C5 counterexample: for a sub-query in FROM without its own alias, the
alias `table2` introduced only inside the sub-query IS visible to the
outer query: the outer `WHERE … table2.id >= 0` resolves against it and
the output rows are keyed under `table2`. -/
theorem claim_C5_cex :
    queryStmt engC5 queryC5 = .ok (.ok ([0, 2, 4, 6, 8].map rowOfC5)) ∧
    lookupQ (rowOfC5 0) ⟨"db1", "table2", "id"⟩ = some (.int 0) := by
  decide

/-! ### General claims -/

/-- C9: a `USE DATABASE` naming a database that does not exist returns
`databaseDoesNotExist` and leaves the executor state — in particular its
implicit database — unchanged, so subsequent statements still run against
the database set by the last successful `USE DATABASE`. -/
theorem claim_C9 (e : Engine) (n : String) (h : findDB e.catalog n = none) :
    execStmt e (.useDatabase n) = (e, some .databaseDoesNotExist) ∧
    (execStmt e (.useDatabase n)).fst.implicitDB = e.implicitDB := by
  simp only [findDB] at h
  have hf := List.find?_eq_none.mp h
  have hany : e.catalog.dbs.any (fun p => p.2 == n) = false := by
    cases hv : e.catalog.dbs.any (fun p => p.2 == n)
    · rfl
    · rcases List.any_eq_true.mp hv with ⟨x, hx, hpx⟩
      exact absurd hpx (hf x hx)
  refine ⟨?_, ?_⟩ <;> simp [execStmt, hany]

def engC9 : Engine := runStmts engine0 [.createDatabase "db1", .useDatabase "db1"]

theorem claim_C9_witness :
    (execStmt engC9 (.useDatabase "db2") = (engC9, some Err.databaseDoesNotExist) ∧
     (execStmt engC9 (.useDatabase "db2")).fst.implicitDB = engC9.implicitDB) ∧
    engC9.implicitDB = some "db1" :=
  ⟨claim_C9 engC9 "db2" (by decide), by decide⟩

/-- C5 (amended): internal aliases of a sub-query are hidden exactly when
the sub-query carries its own alias: then the inner stream is exposed
solely under that alias — every output selector and every scope qualifier
is the sub-query's alias, and outer qualification by any other name
(including an alias introduced only inside) fails to resolve.  (Without a
sub-query alias the inner qualifiers pass through; see the
counterexample.) -/
theorem claim_C5 (e : Engine) (di : Nat) (dn : String) (inner : SimpleSelect) (al : String)
    (scope : Scope) (primary : String) (rows : List RowMap)
    (h : sourceRowsOf e di dn (.subq inner (some al)) = .ok (scope, primary, rows)) :
    primary = al ∧ (∀ p ∈ scope, p.1 = al) ∧
    (∀ r ∈ rows, ∀ pv ∈ r, pv.1.tbl = al) ∧
    (∀ t n, t ≠ al → resolveQual scope (some t) n = .error .columnDoesNotExist) := by
  simp only [sourceRowsOf] at h
  cases h1 : rowsOfSimple e di dn inner with
  | error er => rw [h1] at h; simp [bind, Except.bind] at h
  | ok rows0 =>
      rw [h1] at h
      simp only [bind, Except.bind] at h
      cases h2 : staticScope e.catalog di inner with
      | error er => rw [h2] at h; simp [bind, Except.bind] at h
      | ok sc =>
          rw [h2] at h
          simp only [bind, Except.bind] at h
          cases h3 : outNames sc (inner.asName.getD inner.table) 0 inner.sels with
          | error er => rw [h3] at h; simp [bind, Except.bind] at h
          | ok outs =>
              rw [h3] at h
              simp only [bind, Except.bind, Except.ok.injEq, Prod.mk.injEq] at h
              obtain ⟨hsc, hpr, hrw⟩ := h
              subst hsc hpr hrw
              refine ⟨rfl, ?_, ?_, ?_⟩
              · intro p hp
                rw [List.mem_singleton] at hp
                simp [hp]
              · intro r hr pv hpv
                rcases List.mem_map.mp hr with ⟨r0, _, rfl⟩
                rcases List.mem_map.mp hpv with ⟨pv0, _, rfl⟩
                rfl
              · intro t n ht
                have hne : (al == t) = false := by
                  simpa [beq_iff_eq] using Ne.symm ht
                simp [resolveQual, List.find?, hne]

def engC5w : Engine := runStmts engine0
  [.createDatabase "db1", .useDatabase "db1",
   .createTable "table1" [("id", .integer), ("title", .varchar)] "id",
   .upsert "table1" ["id", "title"] [.int 1, .str "t1"]]

def innerC5w : SimpleSelect :=
  ⟨[.col none "id" none, .col none "title" none], "table1", some "t1", [], none, [], none⟩

def scopeC5w : Scope := [("outerq", ["id", "title"])]

def rowsC5w : List RowMap :=
  [[(⟨"db1", "outerq", "id"⟩, .int 1), (⟨"db1", "outerq", "title"⟩, .str "t1")]]

theorem claim_C5_witness :
    "outerq" = "outerq" ∧ (∀ p ∈ scopeC5w, p.1 = "outerq") ∧
    (∀ r ∈ rowsC5w, ∀ pv ∈ r, pv.1.tbl = "outerq") ∧
    (∀ t n, t ≠ "outerq" → resolveQual scopeC5w (some t) n = .error .columnDoesNotExist) :=
  claim_C5 engC5w 1 "db1" innerC5w "outerq" scopeC5w "outerq" rowsC5w (by decide)

/-- C7: an INNER JOIN whose ON clause does not reference a column from
each of the two joined sides is accepted by `queryStmt` itself, and the
joint-column failure surfaces as `jointColumnNotFound` on the first read
of the returned reader. -/
theorem claim_C7 (e : Engine) (dn dn2 : String) (di : Nat) (sels : List Sel) (t : String)
    (a : Option String) (tv tv2 : TableView) (j : JoinSpec) (js : List JoinSpec)
    (w : Option Exp) (g : List String) (o : Option (String × Bool))
    (h1 : e.implicitDB = some dn)
    (h2 : findDB e.catalog dn = some (di, dn2))
    (h3 : findTable e.catalog di t = some tv)
    (h4 : findTable e.catalog di j.table = some tv2)
    (h5 : checkJoinSides [(a.getD t, tv.cols.map (fun c => c.name))]
            (j.asName.getD j.table, tv2.cols.map (fun c => c.name)) j =
          .error .jointColumnNotFound) :
    queryStmt e ⟨sels, .base t a, j :: js, w, g, o⟩ = .ok (.error .jointColumnNotFound) ∧
    readAt (Except.error Err.jointColumnNotFound : Reader) 0 = .error .jointColumnNotFound := by
  refine ⟨?_, rfl⟩
  simp only [queryStmt, h1, h2]
  have hsrc : sourceRowsOf e di dn (.base t a) =
      .ok ([(a.getD t, tv.cols.map (fun c => c.name))], a.getD t, tableRows e di dn tv (a.getD t)) := by
    simp [sourceRowsOf, h3]
  have hj : evalJoins e di dn [(a.getD t, tv.cols.map (fun c => c.name))]
      (tableRows e di dn tv (a.getD t)) (j :: js) = .error .jointColumnNotFound := by
    simp only [evalJoins, h4, h5, bind, Except.bind]
  have hev : evalSelect e di dn ⟨sels, .base t a, j :: js, w, g, o⟩ =
      .error .jointColumnNotFound := by
    simp only [evalSelect, hsrc, bind, Except.bind]
    simp only [evalCore, hj, bind, Except.bind]
  rw [hev]

def joinC7 : JoinSpec := ⟨"table2", none, (some "table1", "fkid1"), (some "table1", "fkid1")⟩

/-- The join scenario of the covered test: `table1(id, title, fkid1)` and
`table2(id, amount)`. -/
def engC7 : Engine := runStmts engine0
  [.createDatabase "db1", .useDatabase "db1",
   .createTable "table1" [("id", .integer), ("title", .varchar), ("fkid1", .integer)] "id",
   .createTable "table2" [("id", .integer), ("amount", .integer)] "id",
   .upsert "table1" ["id", "title", "fkid1"] [.int 0, .str "title0", .int 9],
   .upsert "table2" ["id", "amount"] [.int 9, .int 0]]

def tvC7 : TableView :=
  ⟨1, "table1", 1, [⟨1, "id", .integer⟩, ⟨2, "title", .varchar⟩, ⟨3, "fkid1", .integer⟩], []⟩

def tvC7b : TableView := ⟨2, "table2", 1, [⟨1, "id", .integer⟩, ⟨2, "amount", .integer⟩], []⟩

theorem claim_C7_witness :
    queryStmt engC7 ⟨[.col none "id" none, .col none "title" none,
        .col (some "table2") "amount" none], .base "table1" none, [joinC7], none, [], none⟩ =
      .ok (.error .jointColumnNotFound) ∧
    readAt (Except.error Err.jointColumnNotFound : Reader) 0 = .error .jointColumnNotFound :=
  claim_C7 engC7 "db1" "db1" 1 _ "table1" none tvC7 tvC7b joinC7 [] none [] none
    (by decide) (by decide) (by decide) (by decide) (by decide)

/-- Every aggregate selector without an alias contributes, at selector
position `i + j`, the output key `col<i+j>` under the primary alias. -/
theorem projSels_agg_mem {db : String} {scope : Scope} {primary : String} {group : List RowMap} :
    ∀ (sels : List Sel) (i j : Nat) (out : RowMap) (f : AggFn) (cn : String),
      projSels db scope primary group i sels = .ok out →
      sels.get? j = some (.agg f cn none) →
      ∃ v, (⟨db, primary, "col" ++ toString (i + j)⟩, v) ∈ out := by
  intro sels
  induction sels with
  | nil => intro i j out f cn h hj; simp at hj
  | cons s rest ih =>
      intro i j out f cn h hj
      cases j with
      | zero =>
          simp only [List.get?] at hj
          cases hj
          simp only [projSels] at h
          cases hv : aggEval db scope f cn group with
          | error er => rw [hv] at h; simp [bind, Except.bind] at h
          | ok v =>
              rw [hv] at h
              simp only [bind, Except.bind] at h
              cases ht : projSels db scope primary group (i + 1) rest with
              | error er => rw [ht] at h; simp at h
              | ok tail =>
                  rw [ht] at h
                  simp only [Except.ok.injEq] at h
                  subst h
                  exact ⟨v, by simp⟩
      | succ j2 =>
          have hj2 : rest.get? j2 = some (.agg f cn none) := by simpa using hj
          have harith : i + 1 + j2 = i + (j2 + 1) := by omega
          cases s with
          | col t? n al =>
              simp only [projSels] at h
              cases hq : resolveQual scope t? n with
              | error er => rw [hq] at h; simp [bind, Except.bind] at h
              | ok q =>
                  rw [hq] at h
                  simp only [bind, Except.bind] at h
                  cases ht : projSels db scope primary group (i + 1) rest with
                  | error er => rw [ht] at h; simp at h
                  | ok tail =>
                      rw [ht] at h
                      simp only [Except.ok.injEq] at h
                      subst h
                      rcases ih (i + 1) j2 tail f cn ht hj2 with ⟨v, hv⟩
                      rw [harith] at hv
                      exact ⟨v, List.mem_append_right _ hv⟩
          | agg f2 cn2 al =>
              simp only [projSels] at h
              cases hv0 : aggEval db scope f2 cn2 group with
              | error er => rw [hv0] at h; simp [bind, Except.bind] at h
              | ok v0 =>
                  rw [hv0] at h
                  simp only [bind, Except.bind] at h
                  cases ht : projSels db scope primary group (i + 1) rest with
                  | error er => rw [ht] at h; simp at h
                  | ok tail =>
                      rw [ht] at h
                      simp only [Except.ok.injEq] at h
                      subst h
                      rcases ih (i + 1) j2 tail f cn ht hj2 with ⟨v, hv⟩
                      rw [harith] at hv
                      exact ⟨v, by simp [hv]⟩

/-- Inversion of the SELECT pipeline: every produced output row is the
projection of some group. -/
theorem evalCore_ok_inv {e : Engine} {di : Nat} {dbn : String} {sels : List Sel}
    {primary : String} {scope0 : Scope} {rows0 : List RowMap} {joins : List JoinSpec}
    {w : Option Exp} {g : List String} {o : Option (String × Bool)} {outs : List RowMap}
    (h : evalCore e di dbn sels primary scope0 rows0 joins w g o = .ok outs) :
    ∃ scope groups outs0,
      mapE (fun gr => projSels dbn scope primary gr 0 sels) groups = .ok outs0 ∧
      ∀ r ∈ outs, r ∈ outs0 := by
  simp only [evalCore] at h
  rcases bind_ok_inv h with ⟨sr, h1, h⟩
  rcases bind_ok_inv h with ⟨rows, h2, h⟩
  rcases bind_ok_inv h with ⟨groups, h3, h⟩
  rcases bind_ok_inv h with ⟨outs0, h4, h⟩
  simp only [Except.ok.injEq] at h
  refine ⟨sr.1, groups, outs0, h4, ?_⟩
  intro r hr
  rw [← h] at hr
  cases o with
  | none => simpa [orderStage] using hr
  | some cd =>
      rcases cd with ⟨c, d⟩
      simp only [orderStage, orderRows] at hr
      rcases mem_orderRows hr with h5 | h5
      · simp at h5
      · exact h5

/-- C4 (amended): in every SELECT containing aggregate functions, an
aggregate output without an explicit AS alias receives the synthetic alias
`col<i>` where `i` is the selector's 0-based position in the full selector
list — so the first unnamed aggregate output is `col1` only when it stands
at position 1.  Every row the query produces carries the aggregate's value
under that key. -/
theorem claim_C4 (e : Engine) (di : Nat) (dbn : String) (sels : List Sel) (primary : String)
    (scope0 : Scope) (rows0 : List RowMap) (joins : List JoinSpec) (w : Option Exp)
    (g : List String) (o : Option (String × Bool)) (outs : List RowMap) (r : RowMap)
    (j : Nat) (f : AggFn) (cn : String)
    (h : evalCore e di dbn sels primary scope0 rows0 joins w g o = .ok outs)
    (hr : r ∈ outs) (hj : sels.get? j = some (.agg f cn none)) :
    ∃ v, (⟨dbn, primary, "col" ++ toString j⟩, v) ∈ r := by
  rcases evalCore_ok_inv h with ⟨scope, groups, outs0, hm, hsub⟩
  rcases mapE_ok_mem hm r (hsub r hr) with ⟨gr, _, hpr⟩
  have := projSels_agg_mem sels 0 j r f cn hpr hj
  simpa using this

def tvC4 : TableView :=
  ⟨1, "table1", 1, [⟨1, "id", .integer⟩, ⟨2, "title", .varchar⟩, ⟨3, "age", .integer⟩,
   ⟨4, "active", .boolean⟩], []⟩

theorem claim_C4_witness :
    ∃ v, ((⟨"db1", "table1", "col2"⟩ : QSel), v) ∈ rowC4odd :=
  claim_C4 engC4 1 "db1" queryC4.sels "table1" [("table1", ["id", "title", "age", "active"])]
    (tableRows engC4 1 "db1" tvC4 "table1") [] none ["active"] none [rowC4odd, rowC4even]
    rowC4odd 2 .minA "age" (by decide) (by decide) (by decide)

/-- Keys absent from every pair of an association list look up to nothing. -/
theorem alookup_none_of {κ ρ : Type} [DecidableEq κ] {l : List (κ × ρ)} {k : κ}
    (h : ∀ p ∈ l, p.1 ≠ k) : alookup l k = none := by
  induction l with
  | nil => rfl
  | cons p rest ih =>
      rcases p with ⟨k0, v0⟩
      have hk : k ≠ k0 := fun he => h (k0, v0) (by simp) (by simp [he])
      simp only [alookup, if_neg hk]
      exact ih (fun p hp => h p (by simp [hp]))

/-- A prefix holding no matching key is transparent to lookup. -/
theorem alookup_append_not_in {κ ρ : Type} [DecidableEq κ] {pre l : List (κ × ρ)} {k : κ}
    (h : ∀ p ∈ pre, p.1 ≠ k) : alookup (pre ++ l) k = alookup l k := by
  induction pre with
  | nil => rfl
  | cons p rest ih =>
      rcases p with ⟨k0, v0⟩
      have hk : k ≠ k0 := fun he => h (k0, v0) (by simp) (by simp [he])
      simp only [List.cons_append, alookup, if_neg hk]
      exact ih (fun p hp => h p (by simp [hp]))

/-- The optional projection entry of one column is keyed by its output
name. -/
theorem mem_projColEntry {db q n outn : String} {group : List RowMap} {p : QSel × Value}
    (h : p ∈ projColEntry db q n outn group) : p.1 = ⟨db, q, outn⟩ := by
  simp only [projColEntry] at h
  cases hg : group.head? with
  | none => rw [hg] at h; simp at h
  | some r =>
      simp only [hg] at h
      cases hv : lookupQ r ⟨db, q, n⟩ with
      | none => simp only [hv] at h; simp at h
      | some v =>
          simp only [hv, List.mem_singleton] at h
          rw [h]

/-- When the column is present in the (singleton-group) row, its
projection entry is exactly that binding. -/
theorem projColEntry_single (db q n outn : String) (r : RowMap) :
    projColEntry db q n outn [r] =
      (match lookupQ r ⟨db, q, n⟩ with
       | some v => [(⟨db, q, outn⟩, v)]
       | none => []) := rfl

/-- Projection of a single row through plain (unqualified, unaliased)
column selectors: each selected column looks up to the row's value — in
particular an absent column yields no entry while the row itself is still
produced. -/
theorem projSels_plain (dn tn : String) (cnames : List String) (r : RowMap) :
    ∀ (names : List String) (i : Nat), names.Nodup → (∀ n ∈ names, n ∈ cnames) →
    ∃ out, projSels dn [(tn, cnames)] tn [r] i (names.map (fun n => Sel.col none n none)) = .ok out ∧
      (∀ n ∈ names, lookupQ out ⟨dn, tn, n⟩ = lookupQ r ⟨dn, tn, n⟩) ∧
      (∀ q v, (q, v) ∈ out → q.col ∈ names) := by
  intro names
  induction names with
  | nil =>
      intro i _ _
      exact ⟨[], rfl, by simp, by simp⟩
  | cons n rest ih =>
      intro i hnd hsub
      have hn : n ∈ cnames := hsub n (by simp)
      have hres : resolveQual [(tn, cnames)] none n = .ok tn := by
        simp [resolveQual, hn]
      have hnd2 : rest.Nodup := (List.nodup_cons.mp hnd).2
      have hnr : n ∉ rest := (List.nodup_cons.mp hnd).1
      rcases ih (i + 1) hnd2 (fun m hm => hsub m (by simp [hm])) with ⟨tail, htl, hlk, hks⟩
      refine ⟨projColEntry dn tn n n [r] ++ tail, ?_, ?_, ?_⟩
      · simp only [List.map_cons, projSels, hres, htl, bind, Except.bind, Option.getD]
      · intro m hm
        rcases List.mem_cons.mp hm with hm | hm
        · subst hm
          rw [projColEntry_single]
          cases hv : lookupQ r ⟨dn, tn, m⟩ with
          | some v => simp [lookupQ, alookup]
          | none =>
              simp only [List.nil_append]
              exact alookup_none_of (fun p hp => by
                have := hks p.1 p.2 (by simpa using hp)
                intro he
                rw [he] at this
                exact hnr this)
        · have hmn : m ≠ n := fun he => hnr (he ▸ hm)
          have hskip : lookupQ (projColEntry dn tn n n [r] ++ tail) ⟨dn, tn, m⟩ =
              lookupQ tail ⟨dn, tn, m⟩ :=
            alookup_append_not_in (fun p hp => by
              have hkey := mem_projColEntry hp
              rw [hkey]
              intro he
              exact hmn (congrArg QSel.col he).symm)
          rw [hskip]
          exact hlk m hm
      · intro q v hqv
        rcases List.mem_append.mp hqv with hqv | hqv
        · have hkey := mem_projColEntry hqv
          simp only at hkey
          rw [hkey]
          simp
        · exact List.mem_cons_of_mem _ (hks q v hqv)

/-- Every entry of a decoded row comes from a column of the table, keyed
by its name, with the stored value. -/
theorem mem_rowMapOf {dn al : String} {cols : List Column} {rd : RowData} {p : QSel × Value}
    (h : p ∈ rowMapOf dn al cols rd) :
    ∃ c ∈ cols, p.1 = ⟨dn, al, c.name⟩ ∧ alookup rd c.id = some p.2 := by
  rcases List.mem_filterMap.mp h with ⟨c, hc, hfc⟩
  cases hv : alookup rd c.id with
  | none => rw [hv] at hfc; simp at hfc
  | some v =>
      rw [hv] at hfc
      simp only [Option.map_some', Option.some.injEq] at hfc
      refine ⟨c, hc, ?_, ?_⟩
      · rw [← hfc]
      · rw [hv, ← hfc]

/-- Looking up an absent column name in a decoded row yields nothing. -/
theorem lookupQ_rowMapOf_none {dn al n : String} {rd : RowData} {cols : List Column}
    (hn : n ∉ cols.map (fun c => c.name)) :
    lookupQ (rowMapOf dn al cols rd) ⟨dn, al, n⟩ = none :=
  alookup_none_of (fun p hp => by
    rcases mem_rowMapOf hp with ⟨c, hc, hkey, _⟩
    rw [hkey]
    intro he
    have : c.name = n := (congrArg QSel.col he)
    exact hn (this ▸ List.mem_map_of_mem (fun c => c.name) hc))

/-- Looking up a column name in a decoded row returns the stored value of
the (unique) column of that name, or nothing when the column id is absent
from the row data. -/
theorem lookupQ_rowMapOf (dn al n : String) (rd : RowData) :
    ∀ (cols : List Column), (cols.map (fun c => c.name)).Nodup →
      lookupQ (rowMapOf dn al cols rd) ⟨dn, al, n⟩ =
        (cols.find? (fun c => c.name == n)).bind (fun c => alookup rd c.id) := by
  intro cols
  induction cols with
  | nil => intro _; rfl
  | cons c rest ih =>
      intro hnd
      have hnd2 : (rest.map (fun c => c.name)).Nodup := (List.nodup_cons.mp hnd).2
      have hcnr : c.name ∉ rest.map (fun c => c.name) := (List.nodup_cons.mp hnd).1
      by_cases hn : c.name = n
      · have hfind : (c :: rest).find? (fun c => c.name == n) = some c := by
          simp [List.find?_cons, hn]
        rw [hfind]
        simp only [rowMapOf, List.filterMap_cons]
        cases hv : alookup rd c.id with
        | none =>
            simp only [hv, Option.map_none', Option.some_bind]
            exact lookupQ_rowMapOf_none (hn ▸ hcnr)
        | some v =>
            simp only [hv, Option.map_some', Option.some_bind]
            simp [lookupQ, alookup, hn]
      · have hfind : (c :: rest).find? (fun c => c.name == n) = rest.find? (fun c => c.name == n) := by
          simp [List.find?_cons, hn]
        rw [hfind, ← ih hnd2]
        simp only [rowMapOf, List.filterMap_cons]
        cases hv : alookup rd c.id with
        | none => simp [hv]
        | some v =>
            simp only [hv, Option.map_some']
            simp only [lookupQ, alookup]
            rw [if_neg (fun he => hn (congrArg QSel.col he).symm)]

/-- A selector list of plain columns contains no aggregate. -/
theorem hasAgg_map_col : ∀ (ns : List String),
    hasAgg (ns.map (fun n => Sel.col none n none)) = false := by
  intro ns
  induction ns with
  | nil => rfl
  | cons a t ih => simpa [hasAgg, List.any_cons] using ih

/-- C10: a SELECT projecting a column for which a given row has no stored
value still returns that row: the produced row maps each selected column
name to the value stored at the corresponding column of the row entry —
so the absent column's selector maps to nothing while every present
column is returned with its stored value, and no row is skipped. -/
theorem claim_C10 (e : Engine) (dn dn2 : String) (di : Nat) (tn : String) (tv : TableView)
    (names : List String)
    (h1 : e.implicitDB = some dn) (h2 : findDB e.catalog dn = some (di, dn2))
    (h3 : findTable e.catalog di tn = some tv)
    (hnames : names.Nodup)
    (hsub : ∀ n ∈ names, n ∈ tv.cols.map (fun c => c.name))
    (hcn : (tv.cols.map (fun c => c.name)).Nodup) :
    ∃ outs,
      queryStmt e ⟨names.map (fun n => Sel.col none n none), .base tn none, [], none, [], none⟩
        = .ok (.ok outs) ∧
      outs.length = (getRows e di tv.id).length ∧
      (∀ k pr out, (getRows e di tv.id).get? k = some pr → outs.get? k = some out →
        ∀ n ∈ names, lookupQ out ⟨dn, tn, n⟩ =
          (tv.cols.find? (fun c => c.name == n)).bind (fun c => alookup pr.2 c.id)) := by
  have hagg := hasAgg_map_col names
  have hall : ∀ gr ∈ (tableRows e di dn tv tn).map (fun r => [r]),
      ∃ out, projSels dn [(tn, tv.cols.map (fun c => c.name))] tn gr 0
        (names.map (fun n => Sel.col none n none)) = .ok out := by
    intro gr hgr
    rcases List.mem_map.mp hgr with ⟨r, hr, rfl⟩
    rcases projSels_plain dn tn (tv.cols.map (fun c => c.name)) r names 0 hnames hsub with
      ⟨out, ho, _, _⟩
    exact ⟨out, ho⟩
  obtain ⟨outs, houts⟩ := mapE_ok_of_all hall
  have hgrs : groupsFor dn [(tn, tv.cols.map (fun c => c.name))]
      (names.map (fun n => Sel.col none n none)) [] (tableRows e di dn tv tn) =
      .ok ((tableRows e di dn tv tn).map (fun r => [r])) := by
    simp [groupsFor, hagg]
  have hcore : evalCore e di dn (names.map (fun n => Sel.col none n none)) tn
      [(tn, tv.cols.map (fun c => c.name))] (tableRows e di dn tv tn) [] none [] none =
      .ok outs := by
    simp only [evalCore, evalJoins, whereFilter, bind, Except.bind, hgrs, houts, orderStage]
  have hsrc : sourceRowsOf e di dn (.base tn none) =
      .ok ([(tn, tv.cols.map (fun c => c.name))], tn, tableRows e di dn tv tn) := by
    simp [sourceRowsOf, h3]
  have hsel : evalSelect e di dn
      ⟨names.map (fun n => Sel.col none n none), .base tn none, [], none, [], none⟩ =
      .ok outs := by
    simp only [evalSelect, hsrc, bind, Except.bind]
    exact hcore
  refine ⟨outs, ?_, ?_, ?_⟩
  · simp only [queryStmt, h1, h2, hsel]
  · have hlen := mapE_ok_length houts
    simp only [List.length_map] at hlen
    rw [hlen]
    simp [tableRows]
  · intro k pr out hk hout n hn
    have hk0 : (tableRows e di dn tv tn).get? k = some (rowMapOf dn tn tv.cols pr.2) := by
      rw [tableRows, List.get?_map, hk]
      rfl
    have hk1 : ((tableRows e di dn tv tn).map (fun r => [r])).get? k =
        some [rowMapOf dn tn tv.cols pr.2] := by
      rw [List.get?_map, hk0]
      rfl
    rcases mapE_ok_get houts k _ hk1 with ⟨y, hy, hfy⟩
    have hyo : y = out := by
      rw [hout] at hy
      exact ((Option.some.injEq _ _).mp hy).symm
    subst hyo
    rcases projSels_plain dn tn (tv.cols.map (fun c => c.name)) (rowMapOf dn tn tv.cols pr.2)
      names 0 hnames hsub with ⟨out2, ho2, hlk2, _⟩
    have ho3 : out2 = y := by
      rw [ho2] at hfy
      exact (Except.ok.injEq _ _).mp hfy
    rw [← ho3, hlk2 n hn]
    exact lookupQ_rowMapOf dn tn n pr.2 tv.cols hcn

def engC10 : Engine := runStmts engine0
  [.createDatabase "db1", .useDatabase "db1",
   .createTable "table1" [("id", .integer), ("title", .varchar)] "id",
   .upsert "table1" ["id"] [.int 1]]

def tvC10 : TableView := ⟨1, "table1", 1, [⟨1, "id", .integer⟩, ⟨2, "title", .varchar⟩], []⟩

theorem claim_C10_witness :
    ∃ outs,
      queryStmt engC10 ⟨["id", "title"].map (fun n => Sel.col none n none),
        .base "table1" none, [], none, [], none⟩ = .ok (.ok outs) ∧
      outs.length = (getRows engC10 1 tvC10.id).length ∧
      (∀ k pr out, (getRows engC10 1 tvC10.id).get? k = some pr → outs.get? k = some out →
        ∀ n ∈ ["id", "title"], lookupQ out ⟨"db1", "table1", n⟩ =
          (tvC10.cols.find? (fun c => c.name == n)).bind (fun c => alookup pr.2 c.id)) :=
  claim_C10 engC10 "db1" "db1" 1 "table1" tvC10 ["id", "title"]
    (by decide) (by decide) (by decide) (by decide) (by decide) (by decide)

theorem alookup_putRows (k : Nat × Nat) (pk : Value) (rd : RowData) :
    ∀ (rs : List ((Nat × Nat) × List (Value × RowData))),
      alookup (putRows rs k pk rd) k = some (insertRow pk rd ((alookup rs k).getD [])) := by
  intro rs
  induction rs with
  | nil => simp [putRows, alookup]
  | cons p rest ih =>
      rcases p with ⟨k0, v0⟩
      by_cases hk : k = k0
      · subst hk
        simp [putRows, alookup]
      · simp only [putRows, if_neg hk, alookup, if_neg hk]
        exact ih

theorem insertRow_alookup (pk : Value) (rd : RowData) :
    ∀ (l : List (Value × RowData)), alookup (insertRow pk rd l) pk = some rd := by
  intro l
  induction l with
  | nil => simp [insertRow, alookup]
  | cons p rest ih =>
      rcases p with ⟨k, v⟩
      by_cases hpk : pk = k
      · simp [insertRow, hpk, alookup]
      · simp only [insertRow, if_neg hpk]
        split
        · simp [alookup]
        · simp only [alookup, if_neg hpk]
          exact ih

theorem mem_insertCol {c : Nat} {v : Value} {x : Nat × Value} :
    ∀ {l : RowData}, x ∈ insertCol c v l → x = (c, v) ∨ x ∈ l := by
  intro l
  induction l with
  | nil => intro h; simpa [insertCol] using h
  | cons p rest ih =>
      intro h
      simp only [insertCol] at h
      split at h
      · simp only [List.mem_cons] at h
        rcases h with h | h | h
        · exact Or.inl h
        · exact Or.inr (by simp [h])
        · exact Or.inr (by simp [h])
      · simp only [List.mem_cons] at h
        rcases h with h | h
        · exact Or.inr (by simp [h])
        · rcases ih h with h2 | h2
          · exact Or.inl h2
          · exact Or.inr (by simp [h2])

theorem mem_sortRowData_aux {x : Nat × Value} :
    ∀ {l : List (Nat × Value)} {acc : RowData},
      x ∈ l.foldl (fun a p => insertCol p.1 p.2 a) acc → x ∈ acc ∨ x ∈ l := by
  intro l
  induction l with
  | nil => intro acc h; exact Or.inl h
  | cons p rest ih =>
      intro acc h
      rcases ih h with h2 | h2
      · rcases mem_insertCol h2 with h3 | h3
        · exact Or.inr (by simp [h3])
        · exact Or.inl h3
      · exact Or.inr (by simp [h2])

theorem mem_sortRowData {x : Nat × Value} {l : List (Nat × Value)}
    (h : x ∈ sortRowData l) : x ∈ l := by
  rcases mem_sortRowData_aux h with h2 | h2
  · simp at h2
  · exact h2

/-- C3 (amended): a successful UPSERT whose primary key equals that of an
existing row REPLACES the whole row entry: the stored row afterwards is
exactly the planned row data of the named columns, so every column of the
table not named in the statement has no value in the stored row (a
subsequent SELECT of it returns nothing), regardless of what the prior
row held. -/
theorem claim_C3 (e e2 : Engine) (dn dn2 : String) (di : Nat) (tn : String) (tv : TableView)
    (cns : List String) (vs : List Value)
    (h1 : e.implicitDB = some dn) (h2 : findDB e.catalog dn = some (di, dn2))
    (h3 : findTable e.catalog di tn = some tv)
    (hids : (tv.cols.map (fun c => c.id)).Nodup)
    (h4 : execStmt e (.upsert tn cns vs) = (e2, none)) :
    ∃ pkv rd, upsertPlan tv cns vs = .ok (pkv, rd) ∧
      alookup (getRows e2 di tv.id) pkv = some rd ∧
      ∀ c ∈ tv.cols, c.name ∉ cns → alookup rd c.id = none := by
  simp only [execStmt, h1, h2, h3] at h4
  cases hp : upsertPlan tv cns vs with
  | error er => rw [hp] at h4; simp at h4
  | ok pr =>
      rcases pr with ⟨pkv, rd⟩
      rw [hp] at h4
      simp only [Prod.mk.injEq] at h4
      obtain ⟨he2, _⟩ := h4
      refine ⟨pkv, rd, rfl, ?_, ?_⟩
      · rw [← he2]
        simp only [getRows]
        rw [alookup_putRows]
        simp only [Option.getD_some]
        exact insertRow_alookup pkv rd _
      · simp only [upsertPlan] at hp
        split at hp
        · simp at hp
        · split at hp
          · simp at hp
          · rcases bind_ok_inv hp with ⟨cols, hcols, hp⟩
            split at hp
            · split at hp
              · simp only [Except.ok.injEq, Prod.mk.injEq] at hp
                obtain ⟨_, hrd⟩ := hp
                intro c hc hcn
                apply alookup_none_of
                intro p hpm
                have hmem := mem_sortRowData (hrd ▸ hpm)
                rcases List.mem_map.mp hmem with ⟨q, hq, rfl⟩
                rcases List.of_mem_zip hq with ⟨hq1, _⟩
                rcases mapE_ok_mem hcols q.1 hq1 with ⟨nm, hnm, hfnm⟩
                intro hep
                cases hfq : tv.cols.find? (fun cc => cc.name == nm) with
                | none => rw [hfq] at hfnm; simp at hfnm
                | some c0 =>
                    rw [hfq] at hfnm
                    simp only [Except.ok.injEq] at hfnm
                    have hc0 : c0 ∈ tv.cols := List.mem_of_find?_eq_some hfq
                    have hc0n : c0.name = nm := by
                      have := List.find?_some hfq
                      simpa using this
                    have hq1c : q.1 = c0 := hfnm.symm
                    have hideq : c.id = c0.id := by rw [← hep, hq1c]
                    have hceq : c = c0 :=
                      List.inj_on_of_nodup_map hids hc hc0 hideq
                    exact hcn (by rw [hceq, hc0n]; exact hnm)
              · simp at hp
            · simp at hp

def engC3pre : Engine := runStmts engine0
  [.createDatabase "db1", .useDatabase "db1",
   .createTable "table1" [("id", .integer), ("title", .varchar)] "id",
   .upsert "table1" ["id", "title"] [.int 1, .str "some title"]]

def tvC3 : TableView := ⟨1, "table1", 1, [⟨1, "id", .integer⟩, ⟨2, "title", .varchar⟩], []⟩

theorem claim_C3_witness :
    ∃ pkv rd, upsertPlan tvC3 ["id"] [.int 1] = .ok (pkv, rd) ∧
      alookup (getRows (execStmt engC3pre (.upsert "table1" ["id"] [.int 1])).fst 1 tvC3.id)
        pkv = some rd ∧
      ∀ c ∈ tvC3.cols, c.name ∉ ["id"] → alookup rd c.id = none :=
  claim_C3 engC3pre (execStmt engC3pre (.upsert "table1" ["id"] [.int 1])).fst "db1" "db1" 1
    "table1" tvC3 ["id"] [.int 1] (by decide) (by decide) (by decide) (by decide) (by decide)

/-! ### Catalog persistence: invariants for reload (C2) and indexes (C8) -/

theorem alookup_append_left {κ ρ : Type} [DecidableEq κ] {l l2 : List (κ × ρ)} {k : κ} {v : ρ}
    (h : alookup l k = some v) : alookup (l ++ l2) k = some v := by
  induction l with
  | nil => simp [alookup] at h
  | cons p rest ih =>
      rcases p with ⟨k0, v0⟩
      simp only [alookup] at h
      simp only [List.cons_append, alookup]
      split at h
      · rw [if_pos ‹k = k0›]; exact h
      · rw [if_neg ‹¬ k = k0›]; exact ih h

theorem alookup_append_of_none {κ ρ : Type} [DecidableEq κ] {l : List (κ × ρ)} {k : κ}
    (h : alookup l k = none) (l2 : List (κ × ρ)) : alookup (l ++ l2) k = alookup l2 k := by
  induction l with
  | nil => rfl
  | cons p rest ih =>
      rcases p with ⟨k0, v0⟩
      simp only [alookup] at h
      split at h
      · simp at h
      · simp only [List.cons_append, alookup, if_neg ‹¬ k = k0›]
        exact ih h

theorem mem_of_alookup {κ ρ : Type} [DecidableEq κ] {l : List (κ × ρ)} {k : κ} {v : ρ}
    (h : alookup l k = some v) : (k, v) ∈ l := by
  induction l with
  | nil => simp [alookup] at h
  | cons p rest ih =>
      rcases p with ⟨k0, v0⟩
      simp only [alookup] at h
      split at h
      · simp only [Option.some.injEq] at h
        subst h
        simp [‹k = k0›]
      · exact List.mem_cons_of_mem _ (ih h)

theorem alookup_of_mem_nodup {κ ρ : Type} [DecidableEq κ] {l : List (κ × ρ)} {k : κ} {v : ρ}
    (hnd : (l.map Prod.fst).Nodup) (h : (k, v) ∈ l) : alookup l k = some v := by
  induction l with
  | nil => simp at h
  | cons p rest ih =>
      rcases p with ⟨k0, v0⟩
      simp only [List.map_cons] at hnd
      rcases List.mem_cons.mp h with h2 | h2
      · cases h2
        simp [alookup]
      · have hk : k ≠ k0 := by
          intro he
          subst he
          exact (List.nodup_cons.mp hnd).1
            (List.mem_map_of_mem Prod.fst h2)
        simp only [alookup, if_neg hk]
        exact ih (List.nodup_cons.mp hnd).2 h2

theorem acc_le_foldl_max : ∀ (xs : List Nat) (acc : Nat), acc ≤ xs.foldl Nat.max acc := by
  intro xs
  induction xs with
  | nil => intro acc; exact le_refl _
  | cons a t ih => intro acc; exact le_trans (Nat.le_max_left acc a) (ih _)

theorem le_foldl_max (x : Nat) : ∀ (xs : List Nat) (acc : Nat), x ∈ xs → x ≤ xs.foldl Nat.max acc := by
  intro xs
  induction xs with
  | nil => intro acc h; simp at h
  | cons a t ih =>
      intro acc h
      rcases List.mem_cons.mp h with h | h
      · subst h
        exact le_trans (Nat.le_max_right acc x) (acc_le_foldl_max t _)
      · exact ih _ h

/-- Assigned ids are always below the next fresh id (§3, invariant 6). -/
theorem lt_nextId {x : Nat} {xs : List Nat} (h : x ∈ xs) : x < nextId xs :=
  Nat.lt_succ_of_le (le_foldl_max x xs 0 h)

theorem map_ok_inv {α β : Type} {x : Except Err α} {f : α → β} {b : β}
    (h : x.map f = .ok b) : ∃ a, x = .ok a ∧ b = f a := by
  cases x with
  | error er => simp [Except.map] at h
  | ok a => exact ⟨a, rfl, by simpa [Except.map] using h.symm⟩

theorem dbsOf_append : ∀ (es es2 : List CatalogEntry), dbsOf (es ++ es2) = dbsOf es ++ dbsOf es2 := by
  intro es es2
  induction es with
  | nil => rfl
  | cons e t ih => cases e <;> simp [dbsOf, ih]

theorem tabsOf_append_ok {ids : List Nat} : ∀ {es es2 : List CatalogEntry}
    {a b : List ((Nat × Nat) × (String × Nat))},
    tabsOf ids es = .ok a → tabsOf ids es2 = .ok b → tabsOf ids (es ++ es2) = .ok (a ++ b) := by
  intro es
  induction es with
  | nil =>
      intro es2 a b h1 h2
      simp only [tabsOf, Except.ok.injEq] at h1
      subst h1
      simpa using h2
  | cons e t ih =>
      intro es2 a b h1 h2
      cases e with
      | tab d tt pk n =>
          simp only [tabsOf] at h1
          by_cases hd : d ∈ ids
          · rw [if_pos hd] at h1
            rcases map_ok_inv h1 with ⟨a0, ht, rfl⟩
            rw [List.cons_append]
            simp only [tabsOf, if_pos hd]
            rw [ih ht h2]
            rfl
          · rw [if_neg hd] at h1; simp at h1
      | db i n => simp only [tabsOf] at h1; simpa [tabsOf] using ih h1 h2
      | col d tt c ty n => simp only [tabsOf] at h1; simpa [tabsOf] using ih h1 h2
      | idx d tt c => simp only [tabsOf] at h1; simpa [tabsOf] using ih h1 h2

theorem tabsOf_mono {ids ids2 : List Nat} (hsub : ∀ x ∈ ids, x ∈ ids2) :
    ∀ {es : List CatalogEntry} {a : List ((Nat × Nat) × (String × Nat))},
    tabsOf ids es = .ok a → tabsOf ids2 es = .ok a := by
  intro es
  induction es with
  | nil => intro a h; simpa [tabsOf] using h
  | cons e t ih =>
      intro a h
      cases e with
      | tab d tt pk n =>
          simp only [tabsOf] at h ⊢
          by_cases hd : d ∈ ids
          · rw [if_pos hd] at h
            rcases map_ok_inv h with ⟨a0, ht, rfl⟩
            rw [if_pos (hsub d hd), ih ht]
            rfl
          · rw [if_neg hd] at h; simp at h
      | db i n => simp only [tabsOf] at h ⊢; exact ih h
      | col d tt c ty n => simp only [tabsOf] at h ⊢; exact ih h
      | idx d tt c => simp only [tabsOf] at h ⊢; exact ih h

theorem colsOf_append_ok {tks : List (Nat × Nat)} : ∀ {es es2 : List CatalogEntry}
    {a b : List ((Nat × Nat × Nat) × (SQLType × String))},
    colsOf tks es = .ok a → colsOf tks es2 = .ok b → colsOf tks (es ++ es2) = .ok (a ++ b) := by
  intro es
  induction es with
  | nil =>
      intro es2 a b h1 h2
      simp only [colsOf, Except.ok.injEq] at h1
      subst h1
      simpa using h2
  | cons e t ih =>
      intro es2 a b h1 h2
      cases e with
      | col d tt c ty n =>
          simp only [colsOf] at h1
          by_cases hd : (d, tt) ∈ tks
          · rw [if_pos hd] at h1
            rcases map_ok_inv h1 with ⟨a0, ht, rfl⟩
            rw [List.cons_append]
            simp only [colsOf, if_pos hd]
            rw [ih ht h2]
            rfl
          · rw [if_neg hd] at h1; simp at h1
      | db i n => simp only [colsOf] at h1; simpa [colsOf] using ih h1 h2
      | tab d tt pk n => simp only [colsOf] at h1; simpa [colsOf] using ih h1 h2
      | idx d tt c => simp only [colsOf] at h1; simpa [colsOf] using ih h1 h2

theorem colsOf_mono {tks tks2 : List (Nat × Nat)} (hsub : ∀ x ∈ tks, x ∈ tks2) :
    ∀ {es : List CatalogEntry} {a : List ((Nat × Nat × Nat) × (SQLType × String))},
    colsOf tks es = .ok a → colsOf tks2 es = .ok a := by
  intro es
  induction es with
  | nil => intro a h; simpa [colsOf] using h
  | cons e t ih =>
      intro a h
      cases e with
      | col d tt c ty n =>
          simp only [colsOf] at h ⊢
          by_cases hd : (d, tt) ∈ tks
          · rw [if_pos hd] at h
            rcases map_ok_inv h with ⟨a0, ht, rfl⟩
            rw [if_pos (hsub _ hd), ih ht]
            rfl
          · rw [if_neg hd] at h; simp at h
      | db i n => simp only [colsOf] at h ⊢; exact ih h
      | tab d tt pk n => simp only [colsOf] at h ⊢; exact ih h
      | idx d tt c => simp only [colsOf] at h ⊢; exact ih h

theorem idxsOf_append_ok {tabs : List ((Nat × Nat) × (String × Nat))} {cks : List (Nat × Nat × Nat)} :
    ∀ {es es2 : List CatalogEntry} {a b : List (Nat × Nat × Nat)},
    idxsOf tabs cks es = .ok a → idxsOf tabs cks es2 = .ok b →
    idxsOf tabs cks (es ++ es2) = .ok (a ++ b) := by
  intro es
  induction es with
  | nil =>
      intro es2 a b h1 h2
      simp only [idxsOf, Except.ok.injEq] at h1
      subst h1
      simpa using h2
  | cons e t ih =>
      intro es2 a b h1 h2
      cases e with
      | idx d tt c =>
          simp only [idxsOf] at h1
          cases hl : alookup tabs (d, tt) with
          | none => simp only [hl] at h1; exact absurd h1 (by simp)
          | some pr =>
              rcases pr with ⟨nm, pk⟩
              simp only [hl] at h1
              rw [List.cons_append]
              simp only [idxsOf, hl]
              by_cases hc : c = pk
              · rw [if_pos hc] at h1 ⊢
                exact ih h1 h2
              · rw [if_neg hc] at h1 ⊢
                by_cases hk : (d, tt, c) ∈ cks
                · rw [if_pos hk] at h1 ⊢
                  rcases map_ok_inv h1 with ⟨a0, ht, rfl⟩
                  rw [ih ht h2]
                  rfl
                · rw [if_neg hk] at h1; simp at h1
      | db i n => simp only [idxsOf] at h1; simpa [idxsOf] using ih h1 h2
      | tab d tt pk n => simp only [idxsOf] at h1; simpa [idxsOf] using ih h1 h2
      | col d tt c ty n => simp only [idxsOf] at h1; simpa [idxsOf] using ih h1 h2

theorem idxsOf_stable {tabs tabs2 : List ((Nat × Nat) × (String × Nat))}
    {cks cks2 : List (Nat × Nat × Nat)}
    (htab : ∀ k v, alookup tabs k = some v → alookup tabs2 k = some v)
    (hcks : ∀ x ∈ cks, x ∈ cks2) :
    ∀ {es : List CatalogEntry} {a : List (Nat × Nat × Nat)},
    idxsOf tabs cks es = .ok a → idxsOf tabs2 cks2 es = .ok a := by
  intro es
  induction es with
  | nil => intro a h; simpa [idxsOf] using h
  | cons e t ih =>
      intro a h
      cases e with
      | idx d tt c =>
          simp only [idxsOf] at h ⊢
          cases hl : alookup tabs (d, tt) with
          | none => simp only [hl] at h; exact absurd h (by simp)
          | some pr =>
              rcases pr with ⟨nm, pk⟩
              simp only [hl] at h
              simp only [htab _ _ hl]
              by_cases hc : c = pk
              · rw [if_pos hc] at h ⊢
                exact ih h
              · rw [if_neg hc] at h ⊢
                by_cases hk : (d, tt, c) ∈ cks
                · rw [if_pos hk] at h
                  rcases map_ok_inv h with ⟨a0, ht, rfl⟩
                  rw [if_pos (hcks _ hk), ih ht]
                  rfl
                · rw [if_neg hk] at h; simp at h
      | db i n => simp only [idxsOf] at h ⊢; exact ih h
      | tab d tt pk n => simp only [idxsOf] at h ⊢; exact ih h
      | col d tt c ty n => simp only [idxsOf] at h ⊢; exact ih h

/-- The entries persisted for a table's columns are only L entries: the
other phases skip them, and the column phase collects them verbatim. -/
theorem dbsOf_colEntries (di ti : Nat) : ∀ (cl : List Column),
    dbsOf (cl.map (fun c => CatalogEntry.col di ti c.id c.colType c.name)) = [] := by
  intro cl
  induction cl with
  | nil => rfl
  | cons c t ih => simpa [dbsOf] using ih

theorem tabsOf_colEntries (ids : List Nat) (di ti : Nat) : ∀ (cl : List Column),
    tabsOf ids (cl.map (fun c => CatalogEntry.col di ti c.id c.colType c.name)) = .ok [] := by
  intro cl
  induction cl with
  | nil => rfl
  | cons c t ih => simpa [tabsOf] using ih

theorem colsOf_colEntries {tks : List (Nat × Nat)} {di ti : Nat} (hmem : (di, ti) ∈ tks) :
    ∀ (cl : List Column),
    colsOf tks (cl.map (fun c => CatalogEntry.col di ti c.id c.colType c.name)) =
      .ok (cl.map (fun c => ((di, ti, c.id), (c.colType, c.name)))) := by
  intro cl
  induction cl with
  | nil => rfl
  | cons c t ih =>
      simp only [List.map_cons, colsOf, if_pos hmem, ih]
      rfl

theorem idxsOf_colEntries (tabs : List ((Nat × Nat) × (String × Nat)))
    (cks : List (Nat × Nat × Nat)) (di ti : Nat) : ∀ (cl : List Column),
    idxsOf tabs cks (cl.map (fun c => CatalogEntry.col di ti c.id c.colType c.name)) = .ok [] := by
  intro cl
  induction cl with
  | nil => rfl
  | cons c t ih => simpa [idxsOf] using ih

theorem loadCatalog_inv {es : List CatalogEntry} {c : Catalog}
    (h : loadCatalog es = .ok c) :
    dbsOf es = c.dbs ∧ tabsOf (c.dbs.map (·.1)) es = .ok c.tabs ∧
    colsOf (c.tabs.map (·.1)) es = .ok c.cols ∧
    idxsOf c.tabs (c.cols.map (·.1)) es = .ok c.idxs := by
  simp only [loadCatalog] at h
  rcases bind_ok_inv h with ⟨tabs, h1, h⟩
  rcases bind_ok_inv h with ⟨cols, h2, h⟩
  rcases bind_ok_inv h with ⟨idxs, h3, h⟩
  simp only [Except.ok.injEq] at h
  subst h
  exact ⟨rfl, h1, h2, h3⟩

theorem loadCatalog_mk {es : List CatalogEntry} {c : Catalog}
    (h1 : dbsOf es = c.dbs) (h2 : tabsOf (c.dbs.map (·.1)) es = .ok c.tabs)
    (h3 : colsOf (c.tabs.map (·.1)) es = .ok c.cols)
    (h4 : idxsOf c.tabs (c.cols.map (·.1)) es = .ok c.idxs) :
    loadCatalog es = .ok c := by
  simp only [loadCatalog, h1, h2, h3, h4, bind, Except.bind]

/-- The executor-maintained invariant: the persisted catalog store reloads
to exactly the in-memory catalog; table keys are unique; and every
secondary-index entry refers to an existing table and is never that
table's primary-key column. -/
def EngineInv (e : Engine) : Prop :=
  loadCatalog e.catalogStore = .ok e.catalog ∧
  (e.catalog.tabs.map Prod.fst).Nodup ∧
  (∀ x ∈ e.catalog.idxs, ∃ nm pk,
    alookup e.catalog.tabs (x.1, x.2.1) = some (nm, pk) ∧ x.2.2 ≠ pk)

theorem inv_init : EngineInv engine0 := by
  refine ⟨rfl, by simp [engine0], ?_⟩
  intro x hx
  simp [engine0] at hx

theorem inv_step_useDatabase (e : Engine) (n : String) (h : EngineInv e) :
    EngineInv (execStmt e (.useDatabase n)).fst := by
  obtain ⟨hload, hnd, hidx⟩ := h
  simp only [execStmt]
  split
  · exact ⟨hload, hnd, hidx⟩
  · exact ⟨hload, hnd, hidx⟩

theorem inv_step_upsert (e : Engine) (tn : String) (cns : List String) (vs : List Value)
    (h : EngineInv e) : EngineInv (execStmt e (.upsert tn cns vs)).fst := by
  obtain ⟨hload, hnd, hidx⟩ := h
  simp only [execStmt]
  cases e.implicitDB with
  | none => exact ⟨hload, hnd, hidx⟩
  | some dn =>
      dsimp only
      cases findDB e.catalog dn with
      | none => exact ⟨hload, hnd, hidx⟩
      | some p =>
          rcases p with ⟨di, dnm⟩
          dsimp only
          cases findTable e.catalog di tn with
          | none => exact ⟨hload, hnd, hidx⟩
          | some tv =>
              dsimp only
              cases upsertPlan tv cns vs with
              | error er => exact ⟨hload, hnd, hidx⟩
              | ok pr =>
                  rcases pr with ⟨pkv, rd⟩
                  exact ⟨hload, hnd, hidx⟩

theorem inv_step_createDatabase (e : Engine) (n : String) (h : EngineInv e) :
    EngineInv (execStmt e (.createDatabase n)).fst := by
  obtain ⟨hload, hnd, hidx⟩ := h
  obtain ⟨hdbs, htabs, hcols, hidxs⟩ := loadCatalog_inv hload
  simp only [execStmt]
  split
  · exact ⟨hload, hnd, hidx⟩
  · refine ⟨?_, hnd, hidx⟩
    apply loadCatalog_mk
    · rw [dbsOf_append, hdbs]
      rfl
    · have hsub : ∀ x ∈ e.catalog.dbs.map (·.1),
          x ∈ (e.catalog.dbs ++ [(nextId (e.catalog.dbs.map (·.1)), n)]).map (·.1) := by
        intro x hx
        rw [List.map_append]
        exact List.mem_append_left _ hx
      have hnew : tabsOf ((e.catalog.dbs ++ [(nextId (e.catalog.dbs.map (·.1)), n)]).map (·.1))
          [CatalogEntry.db (nextId (e.catalog.dbs.map (·.1))) n] = .ok [] := rfl
      have := tabsOf_append_ok (tabsOf_mono hsub htabs) hnew
      simpa using this
    · have hnew : colsOf (e.catalog.tabs.map (·.1))
          [CatalogEntry.db (nextId (e.catalog.dbs.map (·.1))) n] = .ok [] := rfl
      have := colsOf_append_ok hcols hnew
      simpa using this
    · have hnew : idxsOf e.catalog.tabs (e.catalog.cols.map (·.1))
          [CatalogEntry.db (nextId (e.catalog.dbs.map (·.1))) n] = .ok [] := rfl
      have := idxsOf_append_ok hidxs hnew
      simpa using this

/-- Inversion of a successful table lookup: the catalog holds the
corresponding T entry, and the view's columns and indexes are the
catalog's. -/
theorem findTable_inv {c : Catalog} {di : Nat} {tn : String} {tv : TableView}
    (h : findTable c di tn = some tv) :
    ((di, tv.id), (tn, tv.pkId)) ∈ c.tabs ∧
    tv.cols = colsOfTable c di tv.id ∧ tv.indexes = tableIndexes c di tv.id := by
  simp only [findTable] at h
  rcases Option.map_eq_some'.mp h with ⟨p0, hfind, hf⟩
  have hp0 := List.find?_some hfind
  simp only [Bool.and_eq_true, beq_iff_eq] at hp0
  obtain ⟨hd, hn⟩ := hp0
  have hmem := List.mem_of_find?_eq_some hfind
  subst hf
  refine ⟨?_, rfl, rfl⟩
  have : p0 = ((di, p0.1.2), (tn, p0.2.2)) := by
    rcases p0 with ⟨⟨a1, a2⟩, ⟨b1, b2⟩⟩
    simp only at hd hn
    rw [hd, hn]
  rw [← this]
  exact hmem

/-- Membership of a view column in the catalog's column entries. -/
theorem colsOfTable_mem {c : Catalog} {di ti : Nat} {cc : Column}
    (h : cc ∈ colsOfTable c di ti) :
    ((di, ti, cc.id), (cc.colType, cc.name)) ∈ c.cols := by
  rcases List.mem_filterMap.mp h with ⟨q, hq, hfq⟩
  by_cases hg : q.1.1 = di ∧ q.1.2.1 = ti
  · rw [if_pos hg] at hfq
    simp only [Option.some.injEq] at hfq
    have : q = ((di, ti, cc.id), (cc.colType, cc.name)) := by
      rcases q with ⟨⟨a1, a2, a3⟩, ⟨b1, b2⟩⟩
      obtain ⟨hg1, hg2⟩ := hg
      simp only at hg1 hg2
      rw [← hfq]
      simp [hg1, hg2]
    rw [← this]
    exact hq
  · rw [if_neg hg] at hfq
    simp at hfq

theorem inv_step_createIndex (e : Engine) (tn cn : String) (h : EngineInv e) :
    EngineInv (execStmt e (.createIndex tn cn)).fst := by
  obtain ⟨hload, hnd, hidx⟩ := h
  obtain ⟨hdbs, htabs, hcols, hidxs⟩ := loadCatalog_inv hload
  simp only [execStmt]
  cases e.implicitDB with
  | none => exact ⟨hload, hnd, hidx⟩
  | some dn =>
      dsimp only
      cases findDB e.catalog dn with
      | none => exact ⟨hload, hnd, hidx⟩
      | some p =>
          rcases p with ⟨di, dnm⟩
          dsimp only
          cases htv : findTable e.catalog di tn with
          | none => exact ⟨hload, hnd, hidx⟩
          | some tv =>
              dsimp only
              cases hcc : tv.cols.find? (fun c => c.name == cn) with
              | none => exact ⟨hload, hnd, hidx⟩
              | some cc =>
                  dsimp only
                  by_cases hguard : cc.id = tv.pkId ∨ cc.id ∈ tv.indexes
                  · rw [if_pos hguard]
                    exact ⟨hload, hnd, hidx⟩
                  · rw [if_neg hguard]
                    obtain ⟨htmem, htcols, htidx⟩ := findTable_inv htv
                    have hlook : alookup e.catalog.tabs (di, tv.id) = some (tn, tv.pkId) :=
                      alookup_of_mem_nodup hnd htmem
                    have hccmem : cc ∈ tv.cols := List.mem_of_find?_eq_some hcc
                    have hcol : ((di, tv.id, cc.id), (cc.colType, cc.name)) ∈ e.catalog.cols :=
                      colsOfTable_mem (htcols ▸ hccmem)
                    have hckey : (di, tv.id, cc.id) ∈ e.catalog.cols.map (·.1) :=
                      List.mem_map_of_mem (·.1) hcol
                    have hne : cc.id ≠ tv.pkId := fun he => hguard (Or.inl he)
                    refine ⟨?_, hnd, ?_⟩
                    · apply loadCatalog_mk
                      · rw [dbsOf_append, hdbs]
                        simp [dbsOf]
                      · have hnew : tabsOf (e.catalog.dbs.map (·.1))
                            [CatalogEntry.idx di tv.id cc.id] = .ok [] := rfl
                        have := tabsOf_append_ok htabs hnew
                        simpa using this
                      · have hnew : colsOf (e.catalog.tabs.map (·.1))
                            [CatalogEntry.idx di tv.id cc.id] = .ok [] := rfl
                        have := colsOf_append_ok hcols hnew
                        simpa using this
                      · have hnew : idxsOf e.catalog.tabs (e.catalog.cols.map (·.1))
                            [CatalogEntry.idx di tv.id cc.id] = .ok [(di, tv.id, cc.id)] := by
                          simp only [idxsOf, hlook, if_neg hne, if_pos hckey]
                          rfl
                        have := idxsOf_append_ok hidxs hnew
                        simpa using this
                    · intro x hx
                      rcases List.mem_append.mp hx with hx | hx
                      · exact hidx x hx
                      · rw [List.mem_singleton] at hx
                        subst hx
                        exact ⟨tn, tv.pkId, hlook, hne⟩

/-- The table id chosen at creation is fresh: no existing T entry of the
database carries it (§3, invariant 6). -/
theorem fresh_table_key (c : Catalog) (di : Nat) :
    ∀ p ∈ c.tabs, p.1 ≠ (di, nextId (tableIdsIn c di)) := by
  intro p hp he
  have h1 : p.1.1 = di := by rw [he]
  have h2 : p.1.2 = nextId (tableIdsIn c di) := by rw [he]
  have hmem : p.1.2 ∈ tableIdsIn c di := by
    apply List.mem_filterMap.mpr
    exact ⟨p, hp, by rw [if_pos h1]⟩
  rw [h2] at hmem
  exact absurd (lt_nextId hmem) (lt_irrefl _)

theorem inv_step_createTable (e : Engine) (n : String) (colDefs : List (String × SQLType))
    (pkn : String) (h : EngineInv e) : EngineInv (execStmt e (.createTable n colDefs pkn)).fst := by
  obtain ⟨hload, hnd, hidx⟩ := h
  obtain ⟨hdbs, htabs, hcols, hidxs⟩ := loadCatalog_inv hload
  simp only [execStmt]
  cases e.implicitDB with
  | none => exact ⟨hload, hnd, hidx⟩
  | some dn =>
      dsimp only
      cases hdb : findDB e.catalog dn with
      | none => exact ⟨hload, hnd, hidx⟩
      | some p =>
          rcases p with ⟨di, dnm⟩
          dsimp only
          by_cases hdup : ¬ (colDefs.map (·.1)).Nodup
          · rw [if_pos hdup]
            exact ⟨hload, hnd, hidx⟩
          · rw [if_neg hdup]
            cases hpk : (numberCols 1 colDefs).find? (fun c => c.name == pkn) with
            | none => exact ⟨hload, hnd, hidx⟩
            | some pkc =>
                dsimp only
                by_cases hty : pkc.colType ≠ .integer ∧ pkc.colType ≠ .varchar
                · rw [if_pos hty]
                  exact ⟨hload, hnd, hidx⟩
                · rw [if_neg hty]
                  by_cases hex : (findTable e.catalog di n).isSome
                  · rw [if_pos hex]
                    exact ⟨hload, hnd, hidx⟩
                  · rw [if_neg hex]
                    dsimp only
                    have hdi : di ∈ e.catalog.dbs.map (·.1) :=
                      List.mem_map_of_mem (·.1) (List.mem_of_find?_eq_some hdb)
                    have hfresh := fresh_table_key e.catalog di
                    have hnone : alookup e.catalog.tabs
                        (di, nextId (tableIdsIn e.catalog di)) = none :=
                      alookup_none_of hfresh
                    refine ⟨?_, ?_, ?_⟩
                    · apply loadCatalog_mk
                      · rw [dbsOf_append, hdbs, dbsOf_append, dbsOf_append,
                          dbsOf_colEntries]
                        simp [dbsOf]
                      · have htab1 : tabsOf (e.catalog.dbs.map (·.1))
                            [CatalogEntry.tab di (nextId (tableIdsIn e.catalog di)) pkc.id n] =
                            .ok [((di, nextId (tableIdsIn e.catalog di)), (n, pkc.id))] := by
                          simp only [tabsOf, if_pos hdi]
                          rfl
                        have hnew := tabsOf_append_ok
                          (tabsOf_append_ok htab1
                            (tabsOf_colEntries (e.catalog.dbs.map (·.1)) di
                              (nextId (tableIdsIn e.catalog di)) (numberCols 1 colDefs)))
                          (show tabsOf (e.catalog.dbs.map (·.1))
                            [CatalogEntry.idx di (nextId (tableIdsIn e.catalog di)) pkc.id] =
                            .ok [] from rfl)
                        have := tabsOf_append_ok htabs hnew
                        simpa using this
                      · have hsub : ∀ x ∈ e.catalog.tabs.map (·.1),
                            x ∈ (e.catalog.tabs ++
                              [((di, nextId (tableIdsIn e.catalog di)), (n, pkc.id))]).map (·.1) := by
                          intro x hx
                          rw [List.map_append]
                          exact List.mem_append_left _ hx
                        have hmem2 : (di, nextId (tableIdsIn e.catalog di)) ∈
                            (e.catalog.tabs ++
                              [((di, nextId (tableIdsIn e.catalog di)), (n, pkc.id))]).map (·.1) := by
                          rw [List.map_append]
                          exact List.mem_append_right _ (by simp)
                        have hnew := colsOf_append_ok
                          (colsOf_append_ok
                            (show colsOf ((e.catalog.tabs ++
                              [((di, nextId (tableIdsIn e.catalog di)), (n, pkc.id))]).map (·.1))
                              [CatalogEntry.tab di (nextId (tableIdsIn e.catalog di)) pkc.id n] =
                              .ok [] from rfl)
                            (colsOf_colEntries hmem2 (numberCols 1 colDefs)))
                          (show colsOf ((e.catalog.tabs ++
                            [((di, nextId (tableIdsIn e.catalog di)), (n, pkc.id))]).map (·.1))
                            [CatalogEntry.idx di (nextId (tableIdsIn e.catalog di)) pkc.id] =
                            .ok [] from rfl)
                        have := colsOf_append_ok (colsOf_mono hsub hcols) hnew
                        simpa using this
                      · have hlast : idxsOf (e.catalog.tabs ++
                            [((di, nextId (tableIdsIn e.catalog di)), (n, pkc.id))])
                            ((e.catalog.cols ++ (numberCols 1 colDefs).map
                              (fun c => ((di, nextId (tableIdsIn e.catalog di), c.id),
                                (c.colType, c.name)))).map (·.1))
                            [CatalogEntry.idx di (nextId (tableIdsIn e.catalog di)) pkc.id] =
                            .ok [] := by
                          have halook : alookup (e.catalog.tabs ++
                              [((di, nextId (tableIdsIn e.catalog di)), (n, pkc.id))])
                              (di, nextId (tableIdsIn e.catalog di)) = some (n, pkc.id) := by
                            rw [alookup_append_of_none hnone]
                            simp [alookup]
                          simp [idxsOf, halook]
                        have hnew := idxsOf_append_ok
                          (idxsOf_append_ok
                            (show idxsOf (e.catalog.tabs ++
                              [((di, nextId (tableIdsIn e.catalog di)), (n, pkc.id))])
                              ((e.catalog.cols ++ (numberCols 1 colDefs).map
                                (fun c => ((di, nextId (tableIdsIn e.catalog di), c.id),
                                  (c.colType, c.name)))).map (·.1))
                              [CatalogEntry.tab di (nextId (tableIdsIn e.catalog di)) pkc.id n] =
                              .ok [] from rfl)
                            (idxsOf_colEntries _ _ di (nextId (tableIdsIn e.catalog di))
                              (numberCols 1 colDefs)))
                          hlast
                        have hcsub : ∀ x ∈ e.catalog.cols.map (·.1),
                            x ∈ (e.catalog.cols ++ (numberCols 1 colDefs).map
                              (fun c => ((di, nextId (tableIdsIn e.catalog di), c.id),
                                (c.colType, c.name)))).map (·.1) := by
                          intro x hx
                          rw [List.map_append]
                          exact List.mem_append_left _ hx
                        have hstable : idxsOf
                            (e.catalog.tabs ++
                              [((di, nextId (tableIdsIn e.catalog di)), (n, pkc.id))])
                            ((e.catalog.cols ++ (numberCols 1 colDefs).map
                              (fun c => ((di, nextId (tableIdsIn e.catalog di), c.id),
                                (c.colType, c.name)))).map (·.1))
                            e.catalogStore = .ok e.catalog.idxs :=
                          idxsOf_stable (fun k v hv => alookup_append_left hv) hcsub hidxs
                        have := idxsOf_append_ok hstable hnew
                        simpa using this
                    · rw [List.map_append]
                      refine List.Nodup.append hnd (List.nodup_singleton _) ?_
                      intro a ha hb
                      simp only [List.map_cons, List.map_nil, List.mem_singleton] at hb
                      rcases List.mem_map.mp ha with ⟨p, hp, hpa⟩
                      exact hfresh p hp (by rw [hpa, hb])
                    · intro x hx
                      rcases hidx x hx with ⟨nm, pk, hl, hne⟩
                      exact ⟨nm, pk, alookup_append_left hl, hne⟩

theorem inv_step (e : Engine) (s : Stmt) (h : EngineInv e) : EngineInv (execStmt e s).fst := by
  cases s with
  | createDatabase n => exact inv_step_createDatabase e n h
  | useDatabase n => exact inv_step_useDatabase e n h
  | createTable n colDefs pkn => exact inv_step_createTable e n colDefs pkn h
  | createIndex tn cn => exact inv_step_createIndex e tn cn h
  | upsert tn cns vs => exact inv_step_upsert e tn cns vs h

/-- Every reachable engine satisfies the catalog invariant. -/
theorem inv_reachable {e : Engine} (h : Reachable e) : EngineInv e := by
  induction h with
  | init => exact inv_init
  | step s _ ih => exact inv_step _ s ih

/-- C2: for every catalog produced by a sequence of DDL statements, a new
engine constructed over the same persisted catalog store reloads a catalog
equal to the one before shutdown — the same databases, tables, columns
(with their ids and declared types), primary keys and secondary indexes,
since the reloaded catalog is the whole in-memory catalog value. -/
theorem claim_C2 (e : Engine) (h : Reachable e) :
    loadCatalog e.catalogStore = .ok e.catalog :=
  (inv_reachable h).1

theorem reachable_runStmts : ∀ (ss : List Stmt) (e : Engine),
    Reachable e → Reachable (runStmts e ss) := by
  intro ss
  induction ss with
  | nil => intro e h; exact h
  | cons s t ih => intro e h; exact ih _ (Reachable.step s h)

/-- The reopening scenario of the covered test: a database, a table and a
secondary index. -/
def stmtsC8 : List Stmt :=
  [.createDatabase "db1", .useDatabase "db1",
   .createTable "table1" [("id", .integer), ("name", .varchar), ("age", .integer)] "id",
   .createIndex "table1" "name"]

def engC8 : Engine := runStmts engine0 stmtsC8

theorem claim_C2_witness : loadCatalog engC8.catalogStore = .ok engC8.catalog :=
  claim_C2 engC8 (reachable_runStmts stmtsC8 engine0 Reachable.init)

/-- C8: a column never acquires a second index.  CREATE INDEX on an
already-indexed column — and always on the primary-key column — fails with
`indexAlreadyExists`, while the primary-key column itself never appears in
the table's secondary-index set. -/
theorem claim_C8 (e : Engine) (dn dn2 : String) (di : Nat) (tn cn : String)
    (tv : TableView) (c : Column)
    (hre : Reachable e)
    (h1 : e.implicitDB = some dn) (h2 : findDB e.catalog dn = some (di, dn2))
    (h3 : findTable e.catalog di tn = some tv)
    (h4 : tv.cols.find? (fun cc => cc.name == cn) = some c) :
    ((c.id ∈ tv.indexes ∨ c.id = tv.pkId) →
      execStmt e (.createIndex tn cn) = (e, some .indexAlreadyExists)) ∧
    tv.pkId ∉ tv.indexes := by
  obtain ⟨hload, hnd, hidx⟩ := inv_reachable hre
  constructor
  · intro hcase
    simp only [execStmt, h1, h2, h3, h4]
    rw [if_pos (Or.symm hcase)]
  · intro hmem
    obtain ⟨htmem, htcols, htidx⟩ := findTable_inv h3
    have hlook : alookup e.catalog.tabs (di, tv.id) = some (tn, tv.pkId) :=
      alookup_of_mem_nodup hnd htmem
    rw [htidx] at hmem
    rcases List.mem_filterMap.mp hmem with ⟨q, hq, hfq⟩
    by_cases hg : q.1 = di ∧ q.2.1 = tv.id
    · rw [if_pos hg] at hfq
      simp only [Option.some.injEq] at hfq
      have hqeq : q = (di, tv.id, tv.pkId) := by
        rcases q with ⟨a1, a2, a3⟩
        obtain ⟨hg1, hg2⟩ := hg
        simp only at hg1 hg2 hfq
        rw [hg1, hg2, hfq]
      rw [hqeq] at hq
      rcases hidx _ hq with ⟨nm, pk, hl2, hne⟩
      simp only at hl2 hne
      rw [hlook] at hl2
      simp only [Option.some.injEq, Prod.mk.injEq] at hl2
      exact hne hl2.2
    · rw [if_neg hg] at hfq
      simp at hfq

def tvC8 : TableView :=
  ⟨1, "table1", 1, [⟨1, "id", .integer⟩, ⟨2, "name", .varchar⟩, ⟨3, "age", .integer⟩], [2]⟩

theorem claim_C8_witness :
    execStmt engC8 (.createIndex "table1" "name") = (engC8, some Err.indexAlreadyExists) ∧
    tvC8.pkId ∉ tvC8.indexes := by
  have h := claim_C8 engC8 "db1" "db1" 1 "table1" "name" tvC8 ⟨2, "name", .varchar⟩
    (reachable_runStmts stmtsC8 engine0 Reachable.init)
    (by decide) (by decide) (by decide) (by decide)
  exact ⟨h.1 (by decide), h.2⟩

end ImmuSql
